import Mathlib

/-!
# Verification of the canonical-Huffman decoding core (recp/huff)

Shallow embedding of the LSB-first table builder (`huff_init_lsb`), the
single-symbol decoder (`huff_decode_lsb`), the bit-reversal primitives
(`huff_rev8`, `huff_rev8full`) and the bit reader (`huff_read`), translated
from `include/huff/lsb.h`, `include/huff/rev.h` and `src/huff.c`.

Machine integers are modelled as `Nat` with explicit `% 2^w` exactly where the
C code narrows a value (stores into `uint16_t` fields, `(uint8_t)` casts).
The C working type `uint_fast16_t` is at least 64 bits wide; every
intermediate quantity of the builder is bounded far below `2^64`
(`n < 2^16`, so `code[l] < 2^33`), hence those intermediates are modelled as
exact naturals.  The decoder's failure return `(uint_fast16_t)-1` is modelled
as `none`; a successful decode returns `some sym`.
-/

namespace Huff

/-- Bit-reversal of the low `n` bits of `c` (the reference semantics of the
8-bit reversal primitives in `include/huff/rev.h`, generalised to any width
for reasoning): bit `j` of `c` becomes bit `n-1-j` of the result. -/
def rev : Nat → Nat → Nat
  | 0, _ => 0
  | n+1, c => (c % 2) * 2^n + rev n (c / 2)

theorem rev_lt (n c : Nat) : rev n c < 2^n := by
  induction n generalizing c with
  | zero => simp [rev]
  | succ n ih =>
    have h := ih (c / 2)
    have h2 : c % 2 ≤ 1 := Nat.le_of_lt_succ (Nat.mod_lt _ (by norm_num))
    have : (c % 2) * 2^n ≤ 2^n := by
      calc (c % 2) * 2^n ≤ 1 * 2^n := Nat.mul_le_mul_right _ h2
        _ = 2^n := one_mul _
    calc rev (n+1) c = (c % 2) * 2^n + rev n (c / 2) := rfl
      _ < 2^n + 2^n := by omega
      _ = 2^(n+1) := by ring

/-- `rev` only looks at the low `n` bits. -/
theorem rev_mod_self (n c : Nat) : rev n (c % 2^n) = rev n c := by
  induction n generalizing c with
  | zero => simp [rev]
  | succ n ih =>
    show (c % 2^(n+1) % 2) * 2^n + rev n (c % 2^(n+1) / 2)
        = (c % 2) * 2^n + rev n (c / 2)
    have h1 : c % 2^(n+1) % 2 = c % 2 := by
      have : (2:Nat) ∣ 2^(n+1) := dvd_pow_self 2 (Nat.succ_ne_zero n)
      exact Nat.mod_mod_of_dvd c this
    have h2 : c % 2^(n+1) / 2 = (c / 2) % 2^n := by
      rw [pow_succ, mul_comm]
      exact Nat.mod_mul_right_div_self c 2 (2^n)
    rw [h1, h2, ih]

/-- Peeling the top (most significant of the window) bit instead of the
bottom one: bit `n` of `c` lands in bit 0 of the reversal. -/
theorem rev_succ_top (n c : Nat) :
    rev (n+1) c = 2 * rev n c + (c / 2^n) % 2 := by
  induction n generalizing c with
  | zero => simp [rev]
  | succ n ih =>
    show (c % 2) * 2^(n+1) + rev (n+1) (c / 2)
        = 2 * ((c % 2) * 2^n + rev n (c / 2)) + (c / 2^(n+1)) % 2
    rw [ih (c / 2)]
    have : c / 2 / 2^n = c / 2^(n+1) := by
      rw [Nat.div_div_eq_div_mul, pow_succ, mul_comm]
    rw [this]; ring

theorem rev_rev {n c : Nat} (h : c < 2^n) : rev n (rev n c) = c := by
  induction n generalizing c with
  | zero => simp [rev]; omega
  | succ n ih =>
    have hlt : rev n (c / 2) < 2^n := rev_lt n (c / 2)
    have hdiv : c / 2 < 2^n := by
      have : c < 2^n * 2 := by rw [← pow_succ]; exact h
      omega
    calc rev (n+1) (rev (n+1) c)
        = rev (n+1) ((c % 2) * 2^n + rev n (c / 2)) := rfl
      _ = 2 * rev n ((c % 2) * 2^n + rev n (c / 2))
            + (((c % 2) * 2^n + rev n (c / 2)) / 2^n) % 2 := rev_succ_top _ _
      _ = 2 * rev n (rev n (c / 2)) + c % 2 := by
            have hmod : ((c % 2) * 2^n + rev n (c / 2)) % 2^n = rev n (c / 2) := by
              rw [Nat.mul_comm, Nat.mul_add_mod, Nat.mod_eq_of_lt hlt]
            have hdv : ((c % 2) * 2^n + rev n (c / 2)) / 2^n = c % 2 := by
              rw [Nat.mul_comm, Nat.mul_add_div (Nat.pos_pow_of_pos n (by norm_num)),
                  Nat.div_eq_of_lt hlt]
              omega
            rw [hdv]
            have heq : rev n ((c % 2) * 2^n + rev n (c / 2)) = rev n (rev n (c / 2)) := by
              rw [← rev_mod_self n ((c % 2) * 2^n + rev n (c / 2)), hmod]
            rw [heq]
            omega
      _ = c := by rw [ih hdiv]; omega

theorem rev_inj {n a b : Nat} (ha : a < 2^n) (hb : b < 2^n)
    (h : rev n a = rev n b) : a = b := by
  have := congrArg (rev n) h
  rwa [rev_rev ha, rev_rev hb] at this

/-- The high `n - k` bits of a reversal are the reversal of the low `k` bits:
`rev n c / 2^(n-k) = rev k c` for `k ≤ n`. -/
theorem rev_div_pow {n k : Nat} (c : Nat) (hk : k ≤ n) :
    rev n c / 2^(n - k) = rev k c := by
  induction n generalizing c k with
  | zero => interval_cases k; simp [rev]
  | succ n ih =>
    rcases Nat.eq_or_lt_of_le hk with hk' | hk'
    · subst hk'; simp
    · have hk2 : k ≤ n := Nat.lt_succ_iff.mp hk'
      match k, hk2 with
      | 0, _ =>
        show rev (n+1) c / 2^(n+1-0) = 0
        exact Nat.div_eq_of_lt (rev_lt _ _)
      | k+1, hk2 =>
        have hk3 : k ≤ n := Nat.le_of_succ_le hk2
        have hsplit : (2:Nat)^n = 2^k * 2^(n + 1 - (k+1)) := by
          rw [← pow_add]
          congr 1
          omega
        calc rev (n+1) c / 2^(n + 1 - (k+1))
            = ((c % 2) * 2^n + rev n (c / 2)) / 2^(n + 1 - (k+1)) := rfl
          _ = (rev n (c / 2) + ((c % 2) * 2^k) * 2^(n + 1 - (k+1))) / 2^(n + 1 - (k+1)) := by
              rw [hsplit]; ring_nf
          _ = rev n (c / 2) / 2^(n + 1 - (k+1)) + (c % 2) * 2^k := by
              rw [Nat.add_mul_div_right _ _ (Nat.pos_pow_of_pos _ (by norm_num))]
          _ = rev k (c / 2) + (c % 2) * 2^k := by
              have : n + 1 - (k+1) = n - k := by omega
              rw [this, ih (c / 2) hk3]
          _ = rev (k+1) c := by simp [rev]; ring

/-- The low `k` bits of a reversal are the reversal of the high `k` bits:
`rev n c % 2^k = rev k (c / 2^(n-k))` for `k ≤ n`. -/
theorem rev_mod_pow {n k : Nat} (c : Nat) (hk : k ≤ n) :
    rev n c % 2^k = rev k (c / 2^(n - k)) := by
  induction n generalizing c k with
  | zero => interval_cases k; simp [rev]
  | succ n ih =>
    rcases Nat.eq_or_lt_of_le hk with hk' | hk'
    · subst hk'
      simp only [Nat.sub_self, pow_zero, Nat.div_one]
      exact Nat.mod_eq_of_lt (rev_lt _ _)
    · have hk2 : k ≤ n := Nat.lt_succ_iff.mp hk'
      have hsplit : (2:Nat)^n = 2^(n - k) * 2^k := by
        rw [← pow_add]; congr 1; omega
      calc rev (n+1) c % 2^k
          = ((c % 2) * 2^n + rev n (c / 2)) % 2^k := rfl
        _ = (((c % 2) * 2^(n - k)) * 2^k + rev n (c / 2)) % 2^k := by
            rw [hsplit]; ring_nf
        _ = rev n (c / 2) % 2^k := by
            rw [Nat.mul_comm, Nat.mul_add_mod]
        _ = rev k (c / 2 / 2^(n - k)) := ih (c / 2) hk2
        _ = rev k (c / 2^(n + 1 - k)) := by
            rw [Nat.div_div_eq_div_mul, ← pow_succ']
            have hexp : n - k + 1 = n + 1 - k := by omega
            rw [hexp]

/-- The lowest bit of a nonempty reversal is the top bit of the window. -/
theorem rev_mod_two {n : Nat} (c : Nat) (hn : 1 ≤ n) :
    rev n c % 2 = (c / 2^(n-1)) % 2 := by
  have h := rev_mod_pow (n := n) (k := 1) c hn
  simpa [rev] using h

/-! ## Source primitives (`include/huff/rev.h`)

`huff_rev8full(b)` is the full 8-bit reversal of a `uint8_t`;
`huff_rev8(b, len)` is `huff_rev8full(b) >> (8 - len)`.  The `% 256` models
the `uint8_t` argument type (the C callers pass `(uint8_t)` casts). -/

def huff_rev8full (b : Nat) : Nat := rev 8 (b % 256)

def huff_rev8 (b : Nat) (len : Nat) : Nat := huff_rev8full b / 2^(8 - len)

theorem huff_rev8_eq_rev {b len : Nat} (hlen : len ≤ 8) (hb : b < 2^len) :
    huff_rev8 b len = rev len b := by
  have hb8 : b < 256 := lt_of_lt_of_le hb (Nat.pow_le_pow_right (by norm_num) hlen)
  unfold huff_rev8 huff_rev8full
  rw [Nat.mod_eq_of_lt hb8]
  exact rev_div_pow b hlen

theorem huff_rev8_lt (b len : Nat) (hlen : len ≤ 8) : huff_rev8 b len < 2^len := by
  unfold huff_rev8 huff_rev8full
  have h : rev 8 (b % 256) < 2^8 := rev_lt _ _
  have : (2:Nat)^8 = 2^len * 2^(8 - len) := by rw [← pow_add]; congr 1; omega
  rw [Nat.div_lt_iff_lt_mul (Nat.pos_pow_of_pos _ (by norm_num))]
  omega

/-! ## Data model (`include/huff.h`, second revision)

`huff_fast_entry_t { uint8_t len; uint8_t rev; uint16_t sym; }` and
`huff_table_t { fast[256]; uint16_t sentinels[17]; uint16_t offsets[17];
uint16_t syms[288]; }`.  Arrays are modelled as total functions on `Nat`;
the C code only ever reads `fast` at indices `< 256`, `sentinels`/`offsets`
at `1..16` and `syms` at indices `< 288`, and all theorems below stay inside
those ranges. -/

structure huff_fast_entry_t where
  len : Nat
  rev : Nat
  sym : Nat
deriving Repr, DecidableEq

structure huff_table_t where
  fast : Nat → huff_fast_entry_t
  sentinels : Nat → Nat
  offsets : Nat → Nat
  syms : Nat → Nat

/-! ## Table builder (`huff_init_lsb`, include/huff/lsb.h lines 338-410)

The C function works on `uint_fast16_t` locals (at least 64 bits).  Since the
symbol count `n` is a `uint16_t` (`n < 2^16`) and every length is at most 16,
all locals stay far below `2^64`, so they are modelled as exact naturals; the
only narrowing conversions are the `uint16_t` stores into `sentinels`,
`offsets` and `syms` and the `(uint8_t)` casts feeding `huff_rev8`, which are
modelled with explicit `% 2^16` / `% 256` (the latter inside `huff_rev8`). -/

/-- The length histogram loop: `for (i = 0; i < n; i++) count[lengths[i]]++;`.
`countFold lengths m l` is the value of `count[l]` after the first `m`
iterations.  (For `lengths[i] > 16` the C code writes out of bounds —
undefined behavior; the total-function model simply counts them at their
index, and every theorem that touches the histogram assumes
`lengths i ≤ 16`.) -/
def countFold (lengths : Nat → Nat) : Nat → Nat → Nat
  | 0 => fun _ => 0
  | m+1 => fun l =>
      if l = lengths m then countFold lengths m l + 1 else countFold lengths m l

/-- `count[l]` as read by the per-length loop, after the fix-up
`count[0] = 0`. -/
def cnt (lengths : Nat → Nat) (n : Nat) (l : Nat) : Nat :=
  if l = 0 then 0 else countFold lengths n l

/-- `code[l]` of the per-length loop:
`code[l] = (code[l-1] + count[l-1]) << 1`, `code[0] = 0`. -/
def codeArr (lengths : Nat → Nat) (n : Nat) : Nat → Nat
  | 0 => 0
  | l+1 => (codeArr lengths n l + cnt lengths n l) * 2

/-- `sym_idx[l]` of the per-length loop:
`sym_idx[l] = sym_idx[l-1] + count[l-1]`, `sym_idx[0] = 0`. -/
def symIdxArr (lengths : Nat → Nat) (n : Nat) : Nat → Nat
  | 0 => 0
  | l+1 => symIdxArr lengths n l + cnt lengths n l

/-- The exact (unwrapped) sentinel value `code[l] + count[l]`. -/
def sentinelVal (lengths : Nat → Nat) (n : Nat) (l : Nat) : Nat :=
  codeArr lengths n l + cnt lengths n l

/-- Mutable state of the symbol/fast-table fill loop (lines 382-401): the
running copies of `code[]` and `sym_idx[]` plus the `syms` and `fast`
arrays. -/
structure BuildState where
  code : Nat → Nat
  symIdx : Nat → Nat
  syms : Nat → Nat
  fast : Nat → huff_fast_entry_t

/-- The pad loop
`for (pad = 0; pad < (1 << padlen); pad++) { index = code8 | (pad << l);
fast[index].sym = i; fast[index].len = l; }` after `k` iterations.  Only the
`sym` and `len` fields are stored; `rev` is left as is. -/
def fillPads (fast : Nat → huff_fast_entry_t) (code8 l sym : Nat) :
    Nat → (Nat → huff_fast_entry_t)
  | 0 => fast
  | k+1 =>
      Function.update (fillPads fast code8 l sym k) (code8 ||| (k <<< l))
        { fast (code8 ||| (k <<< l)) with sym := sym, len := l }

/-- The C pad loop writes only `.sym` and `.len`, keeping each entry's
`.rev`; since the pad-loop indices `code8 | (pad << l)` are pairwise
distinct, reading the preserved `rev` from the array at loop entry (as
`fillPads` does) agrees with the C statement order.  `fillPads` indeed never
changes a `rev` field: -/
theorem fillPads_rev (fast : Nat → huff_fast_entry_t)
    (code8 l sym : Nat) : ∀ k x,
      ((fillPads fast code8 l sym k) x).rev = (fast x).rev := by
  intro k
  induction k with
  | zero => intro x; rfl
  | succ k ih =>
    intro x
    show (Function.update (fillPads fast code8 l sym k) (code8 ||| (k <<< l))
        { fast (code8 ||| (k <<< l)) with sym := sym, len := l } x).rev
        = (fast x).rev
    by_cases hx : x = code8 ||| (k <<< l)
    · subst hx; rw [Function.update_same]
    · rw [Function.update_noteq hx]
      exact ih x

/-- One iteration `i` of the fill loop. -/
def buildStep (lengths : Nat → Nat) (st : BuildState) (i : Nat) : BuildState :=
  let l := lengths i
  if l = 0 then st
  else
    let st1 : BuildState :=
      { st with
        syms := Function.update st.syms (st.symIdx l) i
        symIdx := Function.update st.symIdx l (st.symIdx l + 1) }
    if l ≤ 8 then
      let code8 := huff_rev8 (st1.code l) l
      { st1 with
        code := Function.update st1.code l (st1.code l + 1)
        fast := fillPads st1.fast code8 l i (2^(8 - l)) }
    else st1

/-- The fill loop after its first `m` iterations, starting from the
`code[]`/`sym_idx[]` arrays computed by the per-length loop, the
all-invalid fast table and the (uninitialised, modelled all-zero) `syms`. -/
def buildLoop (lengths : Nat → Nat) (n : Nat) : Nat → BuildState
  | 0 =>
      { code := codeArr lengths n
        symIdx := symIdxArr lengths n
        syms := fun _ => 0
        fast := fun _ => { len := 0, rev := 0, sym := 0 } }
  | m+1 => buildStep lengths (buildLoop lengths n m) m

/-- The final pass (lines 403-408): store `huff_rev8full(i)` in every fast
entry still marked invalid. -/
def fillRev (fast : Nat → huff_fast_entry_t) : Nat → huff_fast_entry_t :=
  fun i => if (fast i).len = 0 then { fast i with rev := huff_rev8full i } else fast i

/-- `huff_init_lsb` (include/huff/lsb.h lines 338-410).  The `symbols`
parameter is discarded by the C code (`(void)symbols;` on line 349); it is
kept in the signature to mirror the source.  `sentinels` and `offsets` are
`uint16_t`, so the stored values wrap modulo `2^16`; `offsets[l]` stores the
possibly negative `sym_idx[l] - code[l]` as its two's-complement 16-bit
image. -/
def huff_init_lsb (lengths : Nat → Nat) (symbols : Option (Nat → Nat))
    (n : Nat) : huff_table_t :=
  let _ := symbols  -- (void)symbols
  let final := buildLoop lengths n n
  { fast := fillRev final.fast
    sentinels := fun l => (codeArr lengths n l + cnt lengths n l) % 2^16
    offsets := fun l =>
      (((symIdxArr lengths n l : Int) - (codeArr lengths n l : Int)) % 2^16).toNat
    syms := final.syms }

/-- The C `huff_init_lsb` returns `bool`; its only return statement is
`return true` (line 409) — there is no validation or error path. -/
def huff_init_lsb_ret (lengths : Nat → Nat) (symbols : Option (Nat → Nat))
    (n : Nat) : Bool :=
  let _ := lengths
  let _ := symbols
  let _ := n
  true

/-! ## Decoder (`huff_decode_lsb`, include/huff/lsb.h lines 234-283)

The return value is the pair (decoded symbol, `*used`); the C failure return
`(uint_fast16_t)-1` with `*used = 0` is modelled as `(none, 0)`. -/

/-- The `CHECK_LENGTH(9) .. CHECK_LENGTH(12)` unrolling followed by the
`for (l = 13; l <= HUFF_MAX_CODE_LENGTH; l++)` loop, as one recursion:
`checkLengths t code bits l fuel` runs `CHECK_LENGTH(l) ... CHECK_LENGTH(l +
fuel - 1)` and then falls through to `*used = 0; return -1;`.
`code` and `bits` are `uint16_t` locals, hence the `% 2^16`. -/
def checkLengths (t : huff_table_t) (code bits l : Nat) : Nat → Option Nat × Nat
  | 0 => (none, 0)
  | fuel+1 =>
      let code' := (code * 2 + bits % 2) % 2^16
      if code' < t.sentinels l then
        (some (t.syms ((t.offsets l + code') % 2^16)), l)
      else
        checkLengths t code' (bits / 2) (l + 1) fuel

/-- `huff_decode_lsb` (include/huff/lsb.h lines 234-283).  `bit_length` is
explicitly discarded by the C code (`(void)bit_length;` on line 244).
`bits8 = (uint8_t)bitstream` and `bits = (uint16_t)(bitstream >> 8)`. -/
def huff_decode_lsb (t : huff_table_t) (bitstream : Nat) (bit_length : Nat) :
    Option Nat × Nat :=
  let _ := bit_length  -- (void)bit_length
  let bits8 := bitstream % 256
  let fe := t.fast bits8
  if fe.len ≠ 0 then
    (some fe.sym, fe.len)
  else
    checkLengths t fe.rev ((bitstream / 256) % 2^16) 9 8

/-! ## Bit reader (`huff_read`, src/huff.c lines 331-370)

The byte buffer is a `List Nat` of bytes (each `< 256`); `p` is the byte
position of the cursor pointer within the buffer and `end` is the buffer
length.  `bitstream_t` is `uint64_t`, so at most 8 bytes are loaded; the
loaded value is below `2^64`, no wrapping occurs. -/

/-- The load loop `for (i = 0; i < bytes_to_load; i++) result |= p[i] << (i*8);`
after `k` iterations. -/
def loadLE (buf : List Nat) (p : Nat) : Nat → Nat
  | 0 => 0
  | k+1 => loadLE buf p k ||| ((buf.getD (p + k) 0) <<< (k * 8))

/-- Result record of one `huff_read` call: the returned word, the stored
`*nbits`, and the updated cursor (`*p`, `*bit_offset`). -/
structure huff_read_result where
  result : Nat
  nbits : Nat
  p : Nat
  bit_offset : Nat
deriving Repr, DecidableEq

/-- `huff_read` (src/huff.c lines 331-370). -/
def huff_read (buf : List Nat) (p : Nat) (bit_offset : Nat) : huff_read_result :=
  if p ≥ buf.length then
    { result := 0, nbits := 0, p := p, bit_offset := bit_offset }
  else
    let bit_in_byte := bit_offset % 8
    let remaining_bytes := buf.length - p
    let bytes_to_load := min remaining_bytes 8
    let result := loadLE buf p bytes_to_load >>> bit_in_byte
    let nbits := bytes_to_load * 8 - bit_in_byte
    { result := result
      nbits := nbits
      p := p + nbits / 8
      bit_offset := bit_offset + nbits }

/-! ## The canonical code assignment (reference definitions)

Modelled from the spec: the repository contains no encoder; spec §8
("Round-trip with a naive encoder") and the C1 claim posit a reference
encoder that assigns canonical MSB-first codes from the lengths exactly as
the builder's per-length loop does, and emits each codeword LSB-first.
These definitions follow the spec's words (§4.3 steps 2 and 6: codes are
handed out per length in input-symbol order). -/

/-- The canonical MSB-first code of symbol `i`: the first code of its length
plus its rank among same-length symbols that precede it in input order. -/
def canonCode (lengths : Nat → Nat) (n i : Nat) : Nat :=
  codeArr lengths n (lengths i) + countFold lengths i (lengths i)

/-- Modelled from the spec: the LSB-first image of symbol `i`'s codeword —
the bit pattern that appears in the low `lengths i` bits of the stream word
when the codeword is packed DEFLATE-style (first-consumed bit in bit 0). -/
def encodeSym (lengths : Nat → Nat) (n i : Nat) : Nat :=
  rev (lengths i) (canonCode lengths n i)

/-- Modelled from the spec: the naive LSB-first encoder for a whole symbol
stream; the head symbol occupies the lowest bits. -/
def encodeStream (lengths : Nat → Nat) (n : Nat) : List Nat → Nat
  | [] => 0
  | s :: rest => encodeSym lengths n s + encodeStream lengths n rest * 2^(lengths s)

/-- Modelled from the spec: repeated single-symbol decoding, consuming
`used` bits per call (spec §3.4: cursor advancement is driven by the
returned `bits_consumed`).  Returns `none` as soon as one call fails. -/
def decodeN (t : huff_table_t) (w : Nat) : Nat → Option (List Nat)
  | 0 => some []
  | k+1 =>
      match huff_decode_lsb t w 64 with
      | (some s, used) => (decodeN t (w / 2^used) k).map (s :: ·)
      | (none, _) => none

/-- The scaled Kraft sum `Σ_{i<n, lengths i ≠ 0} 2^(16 - lengths i)`
(the Kraft inequality `Σ 2^(-l_i) ≤ 1` multiplied by `2^16`). -/
def kraftSum (lengths : Nat → Nat) : Nat → Nat
  | 0 => 0
  | m+1 => kraftSum lengths m + (if lengths m = 0 then 0 else 2^(16 - lengths m))

/-! ## Counting lemmas -/

theorem countFold_mono (lengths : Nat → Nat) {m m' : Nat} (h : m ≤ m') (l : Nat) :
    countFold lengths m l ≤ countFold lengths m' l := by
  induction m' with
  | zero =>
    have hm : m = 0 := by omega
    subst hm
    exact le_refl _
  | succ m' ih =>
    rcases Nat.eq_or_lt_of_le h with h' | h'
    · subst h'; exact le_refl _
    · have := ih (Nat.lt_succ_iff.mp h')
      show countFold lengths m l ≤
        (if l = lengths m' then countFold lengths m' l + 1 else countFold lengths m' l)
      split <;> omega

theorem countFold_succ_self (lengths : Nat → Nat) (j : Nat) :
    countFold lengths (j+1) (lengths j) = countFold lengths j (lengths j) + 1 := by
  show (if lengths j = lengths j then _ else _) = _
  simp

theorem countFold_lt (lengths : Nat → Nat) {j m : Nat} (hj : j < m) :
    countFold lengths j (lengths j) < countFold lengths m (lengths j) := by
  have h1 := countFold_succ_self lengths j
  have h2 := countFold_mono lengths (show j + 1 ≤ m from hj) (lengths j)
  omega

/-- Same-length symbols have strictly increasing ranks. -/
theorem countFold_strict (lengths : Nat → Nat) {i j : Nat} (hij : i < j)
    (hl : lengths i = lengths j) :
    countFold lengths i (lengths i) < countFold lengths j (lengths j) := by
  have := countFold_lt lengths hij
  rw [hl] at this ⊢
  exact this

/-! ## Kraft lemmas

`wsum lengths m l = Σ_{j=1}^{l} countFold lengths m j * 2^(l-j)` expressed
through the same recursion that the sentinel values satisfy. -/

def wsum (lengths : Nat → Nat) (m : Nat) : Nat → Nat
  | 0 => 0
  | l+1 => 2 * wsum lengths m l + countFold lengths m (l+1)

theorem sentinelVal_zero (lengths : Nat → Nat) (n : Nat) :
    sentinelVal lengths n 0 = 0 := by
  simp [sentinelVal, codeArr, cnt]

theorem codeArr_succ (lengths : Nat → Nat) (n l : Nat) :
    codeArr lengths n (l+1) = 2 * sentinelVal lengths n l := by
  show (codeArr lengths n l + cnt lengths n l) * 2 = _
  unfold sentinelVal
  ring

theorem sentinelVal_succ (lengths : Nat → Nat) (n l : Nat) :
    sentinelVal lengths n (l+1)
      = 2 * sentinelVal lengths n l + countFold lengths n (l+1) := by
  unfold sentinelVal
  rw [codeArr_succ]
  have : cnt lengths n (l+1) = countFold lengths n (l+1) := by
    unfold cnt; simp
  unfold sentinelVal
  omega

theorem sentinelVal_eq_wsum (lengths : Nat → Nat) (n : Nat) : ∀ l,
    sentinelVal lengths n l = wsum lengths n l := by
  intro l
  induction l with
  | zero => rw [sentinelVal_zero]; rfl
  | succ l ih => rw [sentinelVal_succ, ih]; rfl

theorem wsum_succ_m (lengths : Nat → Nat) (m : Nat) : ∀ l,
    wsum lengths (m+1) l = wsum lengths m l +
      (if lengths m ≠ 0 ∧ lengths m ≤ l then 2^(l - lengths m) else 0) := by
  intro l
  induction l with
  | zero =>
    have : ¬(lengths m ≠ 0 ∧ lengths m ≤ 0) := by omega
    simp [wsum, this]
  | succ l ih =>
    show 2 * wsum lengths (m+1) l + countFold lengths (m+1) (l+1) = _
    rw [ih]
    have hc : countFold lengths (m+1) (l+1) =
        countFold lengths m (l+1) + (if l+1 = lengths m then 1 else 0) := by
      show (if l+1 = lengths m then countFold lengths m (l+1) + 1
            else countFold lengths m (l+1)) = _
      split <;> omega
    rw [hc]
    by_cases h0 : lengths m = 0
    · simp [h0, wsum]
    · by_cases hle : lengths m ≤ l
      · have h1 : lengths m ≠ 0 ∧ lengths m ≤ l := ⟨h0, hle⟩
        have h2 : lengths m ≠ 0 ∧ lengths m ≤ l + 1 := ⟨h0, by omega⟩
        have h3 : ¬(l + 1 = lengths m) := by omega
        simp only [if_pos h1, if_pos h2, if_neg h3, wsum]
        have : l + 1 - lengths m = (l - lengths m) + 1 := by omega
        rw [this, pow_succ]
        ring
      · by_cases heq : lengths m = l + 1
        · have h1 : ¬(lengths m ≠ 0 ∧ lengths m ≤ l) := by omega
          have h2 : lengths m ≠ 0 ∧ lengths m ≤ l + 1 := ⟨h0, by omega⟩
          have h3 : l + 1 = lengths m := heq.symm
          simp only [if_pos h2, if_neg h1, if_pos h3, wsum]
          have : l + 1 - lengths m = 0 := by omega
          rw [this]
          ring
        · have h1 : ¬(lengths m ≠ 0 ∧ lengths m ≤ l) := by omega
          have h2 : ¬(lengths m ≠ 0 ∧ lengths m ≤ l + 1) := by omega
          have h3 : ¬(l + 1 = lengths m) := by omega
          simp only [if_neg h1, if_neg h2, if_neg h3, wsum]
          ring

theorem wsum_16_eq_kraftSum (lengths : Nat → Nat) : ∀ m,
    (∀ i, i < m → lengths i ≤ 16) →
    wsum lengths m 16 = kraftSum lengths m := by
  intro m
  induction m with
  | zero =>
    intro _
    show wsum lengths 0 16 = 0
    have : ∀ l, wsum lengths 0 l = 0 := by
      intro l
      induction l with
      | zero => rfl
      | succ l ih =>
        show 2 * wsum lengths 0 l + countFold lengths 0 (l+1) = 0
        rw [ih]; rfl
    exact this 16
  | succ m ih =>
    intro hlen
    rw [wsum_succ_m]
    rw [ih (fun i hi => hlen i (Nat.lt_succ_of_lt hi))]
    show _ = kraftSum lengths m + (if lengths m = 0 then 0 else 2^(16 - lengths m))
    have hm := hlen m (Nat.lt_succ_self m)
    by_cases h0 : lengths m = 0
    · simp [h0]
    · have : lengths m ≠ 0 ∧ lengths m ≤ 16 := ⟨h0, hm⟩
      simp [this, h0]

theorem wsum_le_of_le (lengths : Nat → Nat) (m : Nat) {l L : Nat} (h : l ≤ L) :
    2^(L - l) * wsum lengths m l ≤ wsum lengths m L := by
  induction L with
  | zero =>
    have : l = 0 := by omega
    subst this
    simp
  | succ L ih =>
    rcases Nat.eq_or_lt_of_le h with h' | h'
    · subst h'; simp
    · have hle : l ≤ L := Nat.lt_succ_iff.mp h'
      have := ih hle
      have hexp : L + 1 - l = (L - l) + 1 := by omega
      calc 2^(L + 1 - l) * wsum lengths m l
          = 2 * (2^(L - l) * wsum lengths m l) := by rw [hexp, pow_succ]; ring
        _ ≤ 2 * wsum lengths m L := by omega
        _ ≤ 2 * wsum lengths m L + countFold lengths m (L+1) := by omega
        _ = wsum lengths m (L+1) := rfl

/-- Under the (scaled) Kraft inequality, the exact sentinel value at length
`l` is at most `2^l`; in particular every canonical code of length `l` fits
in `l` bits. -/
theorem sentinelVal_le_pow (lengths : Nat → Nat) (n : Nat)
    (hlen : ∀ i, i < n → lengths i ≤ 16)
    (hkraft : kraftSum lengths n ≤ 2^16) {l : Nat} (hl : l ≤ 16) :
    sentinelVal lengths n l ≤ 2^l := by
  have h1 := wsum_le_of_le lengths n hl
  rw [wsum_16_eq_kraftSum lengths n hlen] at h1
  have h2 : 2^(16 - l) * wsum lengths n l ≤ 2^(16 - l) * 2^l := by
    calc 2^(16 - l) * wsum lengths n l ≤ kraftSum lengths n := h1
      _ ≤ 2^16 := hkraft
      _ = 2^(16 - l) * 2^l := by rw [← pow_add]; congr 1; omega
  rw [sentinelVal_eq_wsum]
  exact Nat.le_of_mul_le_mul_left h2 (Nat.pos_pow_of_pos _ (by norm_num))

/-! ## Canonical-code dominance and prefix-freeness -/

theorem codeArr_le_sentinelVal (lengths : Nat → Nat) (n l : Nat) :
    codeArr lengths n l ≤ sentinelVal lengths n l :=
  Nat.le_add_right _ _

/-- Any strict high-bits prefix of a first code of length `l` is at least the
sentinel of the shorter length: `sentinels[l'] ≤ code[l] >> (l - l')` for
`l' < l`. -/
theorem sentinelVal_le_codeArr_shift (lengths : Nat → Nat) (n : Nat) :
    ∀ d l', sentinelVal lengths n l' ≤ codeArr lengths n (l' + d + 1) / 2^(d + 1) := by
  intro d
  induction d with
  | zero =>
    intro l'
    rw [codeArr_succ]
    simp [Nat.mul_div_cancel_left]
  | succ d ih =>
    intro l'
    have h1 : codeArr lengths n (l' + (d+1) + 1) / 2^(d + 2)
        = (codeArr lengths n (l' + d + 2) / 2) / 2^(d+1) := by
      rw [Nat.div_div_eq_div_mul]
      congr 1
      ring
    rw [show l' + (d+1) + 1 = l' + d + 2 by ring] at *
    rw [h1]
    have h2 : codeArr lengths n (l' + d + 2) / 2 = sentinelVal lengths n (l' + d + 1) := by
      rw [show l' + d + 2 = (l' + d + 1) + 1 by ring, codeArr_succ]
      simp [Nat.mul_div_cancel_left]
    rw [h2]
    calc sentinelVal lengths n l'
        ≤ codeArr lengths n (l' + d + 1) / 2^(d+1) := ih l'
      _ ≤ sentinelVal lengths n (l' + d + 1) / 2^(d+1) :=
          Nat.div_le_div_right (codeArr_le_sentinelVal lengths n _)

theorem canonCode_lt_sentinelVal (lengths : Nat → Nat) (n : Nat) {i : Nat}
    (hi : i < n) (hpos : 0 < lengths i) :
    canonCode lengths n i < sentinelVal lengths n (lengths i) := by
  unfold canonCode sentinelVal
  have h1 := countFold_lt lengths hi
  have h2 : cnt lengths n (lengths i) = countFold lengths n (lengths i) := by
    unfold cnt
    simp [show lengths i ≠ 0 by omega]
  omega

theorem canonCode_lt_pow (lengths : Nat → Nat) (n : Nat)
    (hlen : ∀ i, i < n → lengths i ≤ 16)
    (hkraft : kraftSum lengths n ≤ 2^16) {i : Nat} (hi : i < n)
    (hpos : 0 < lengths i) :
    canonCode lengths n i < 2^(lengths i) := by
  have h1 := canonCode_lt_sentinelVal lengths n hi hpos
  have h2 := sentinelVal_le_pow lengths n hlen hkraft (hlen i hi)
  omega

/-- Canonical codes are prefix-free: for distinct coded symbols `i`, `j` with
`lengths i ≤ lengths j`, the high `lengths i` bits of `j`'s code differ from
`i`'s code.  (No Kraft hypothesis is needed for distinctness.) -/
theorem canon_prefix_free (lengths : Nat → Nat) (n : Nat) {i j : Nat}
    (hi : i < n) (hij : i ≠ j) (hposi : 0 < lengths i)
    (hlj : lengths i ≤ lengths j) :
    canonCode lengths n j / 2^(lengths j - lengths i) ≠ canonCode lengths n i := by
  rcases Nat.eq_or_lt_of_le hlj with heq | hlt
  · -- same length: ranks differ
    rw [show lengths j - lengths i = 0 by omega, pow_zero, Nat.div_one]
    unfold canonCode
    rw [← heq]
    rcases Nat.lt_or_ge i j with h | h
    · have := countFold_strict lengths h heq
      rw [← heq] at this
      omega
    · have hj : j < i := by omega
      have := countFold_strict lengths hj heq.symm
      rw [← heq] at this
      omega
  · -- lengths i < lengths j: the prefix is at least the sentinel of lengths i
    intro hcontra
    have hd : lengths j = lengths i + (lengths j - lengths i - 1) + 1 := by omega
    have h1 : sentinelVal lengths n (lengths i)
        ≤ codeArr lengths n (lengths j) / 2^(lengths j - lengths i) := by
      have := sentinelVal_le_codeArr_shift lengths n (lengths j - lengths i - 1) (lengths i)
      rw [show lengths i + (lengths j - lengths i - 1) + 1 = lengths j by omega] at this
      rw [show lengths j - lengths i - 1 + 1 = lengths j - lengths i by omega] at this
      exact this
    have h2 : codeArr lengths n (lengths j) ≤ canonCode lengths n j :=
      Nat.le_add_right _ _
    have h3 : codeArr lengths n (lengths j) / 2^(lengths j - lengths i)
        ≤ canonCode lengths n j / 2^(lengths j - lengths i) :=
      Nat.div_le_div_right h2
    have h4 := canonCode_lt_sentinelVal lengths n hi hposi
    omega

/-! ## The fast-table fill sets -/

/-- `a | (b << l) = b * 2^l + a` when `a` fits in `l` bits: the pad-loop
index arithmetic. -/
theorem lor_shiftLeft_eq_add {a b l : Nat} (ha : a < 2^l) :
    a ||| (b <<< l) = b * 2^l + a := by
  apply Nat.eq_of_testBit_eq
  intro i
  rw [Nat.testBit_lor, Nat.testBit_shiftLeft]
  rcases Nat.lt_or_ge i l with hi | hi
  · have h1 : ¬ (i ≥ l) := by omega
    simp only [ge_iff_le, h1, decide_False, Bool.false_and, Bool.or_false]
    rw [Nat.testBit_to_div_mod, Nat.testBit_to_div_mod]
    have hsplit : b * 2^l + a = a + (b * 2^(l - i - 1) * 2) * 2^i := by
      have : (2:Nat)^l = 2^(l - i - 1) * 2 * 2^i := by
        rw [mul_assoc, mul_comm 2 (2^i), ← pow_succ, ← pow_add]
        congr 1
        omega
      rw [this]
      ring
    rw [hsplit, Nat.add_mul_div_right _ _ (Nat.pos_pow_of_pos i (by norm_num)),
        Nat.add_mul_mod_self_right]
  · have h1 : (i ≥ l) := hi
    have ha' : a < 2^i := lt_of_lt_of_le ha (Nat.pow_le_pow_right (by norm_num) hi)
    rw [Nat.testBit_lt_two_pow ha']
    simp only [ge_iff_le, h1, decide_True, Bool.true_and, Bool.false_or]
    rw [Nat.testBit_to_div_mod, Nat.testBit_to_div_mod]
    have hstep : (b * 2^l + a) / 2^i = b / 2^(i - l) := by
      have hij : (2:Nat)^i = 2^l * 2^(i - l) := by
        rw [← pow_add]; congr 1; omega
      rw [hij, ← Nat.div_div_eq_div_mul]
      have : (b * 2^l + a) / 2^l = b := by
        rw [Nat.add_comm, Nat.add_mul_div_right _ _ (Nat.pos_pow_of_pos l (by norm_num)),
            Nat.div_eq_of_lt ha]
        omega
      rw [this]
    rw [hstep]

/-- Membership in the pad-loop fill set: the indices written for a codeword
with LSB image `c8` of length `l ≤ 8` are exactly the 8-bit patterns whose
low `l` bits equal `c8`. -/
theorem fill_set_mem {c8 l x : Nat} (hc8 : c8 < 2^l) (hl : l ≤ 8) :
    (x % 2^l = c8 ∧ x < 256) ↔ ∃ k, k < 2^(8 - l) ∧ x = c8 ||| (k <<< l) := by
  constructor
  · rintro ⟨hmod, hlt⟩
    refine ⟨x / 2^l, ?_, ?_⟩
    · have : (2:Nat)^8 = 2^l * 2^(8 - l) := by rw [← pow_add]; congr 1; omega
      have h256 : (256:Nat) = 2^8 := by norm_num
      rw [Nat.div_lt_iff_lt_mul (Nat.pos_pow_of_pos l (by norm_num))]
      calc x < 256 := hlt
        _ = 2^l * 2^(8-l) := by rw [h256, this]
        _ = 2^(8-l) * 2^l := by ring
    · rw [lor_shiftLeft_eq_add hc8, ← hmod]
      have hdm := Nat.div_add_mod' x (2^l)
      omega
  · rintro ⟨k, hk, rfl⟩
    rw [lor_shiftLeft_eq_add hc8]
    constructor
    · rw [Nat.add_comm, Nat.add_mul_mod_self_right, Nat.mod_eq_of_lt hc8]
    · have : (256:Nat) = 2^(8-l) * 2^l := by
        rw [← pow_add]
        have : 8 - l + l = 8 := by omega
        rw [this]
        norm_num
      calc k * 2^l + c8 < k * 2^l + 2^l := by omega
        _ = (k + 1) * 2^l := by ring
        _ ≤ 2^(8-l) * 2^l := Nat.mul_le_mul_right _ (by omega)
        _ = 256 := this.symm

/-- Pointwise description of `fillPads`: after `k` pad iterations the entries
at `c8 + pad * 2^l` for `pad < k` carry `(sym, l)`; all other entries are
unchanged. -/
theorem fillPads_get (fast : Nat → huff_fast_entry_t) {c8 l : Nat} (sym : Nat)
    (hc8 : c8 < 2^l) : ∀ k x,
    (fillPads fast c8 l sym k) x =
      if x % 2^l = c8 ∧ x / 2^l < k then { fast x with sym := sym, len := l }
      else fast x := by
  intro k
  induction k with
  | zero =>
    intro x
    have : ¬ (x % 2^l = c8 ∧ x / 2^l < 0) := fun h => Nat.not_lt_zero _ h.2
    simp [fillPads, this]
  | succ k ih =>
    intro x
    show (Function.update (fillPads fast c8 l sym k) (c8 ||| (k <<< l))
        { fast (c8 ||| (k <<< l)) with sym := sym, len := l } x) = _
    have hidx : c8 ||| (k <<< l) = k * 2^l + c8 := lor_shiftLeft_eq_add hc8
    by_cases hx : x = c8 ||| (k <<< l)
    · subst hx
      rw [Function.update_same]
      have h1 : (c8 ||| (k <<< l)) % 2^l = c8 := by
        rw [hidx, Nat.add_comm, Nat.add_mul_mod_self_right, Nat.mod_eq_of_lt hc8]
      have h2 : (c8 ||| (k <<< l)) / 2^l = k := by
        rw [hidx, Nat.add_comm, Nat.add_mul_div_right _ _ (Nat.pos_pow_of_pos l (by norm_num)),
            Nat.div_eq_of_lt hc8]
        omega
      rw [if_pos ⟨h1, by omega⟩]
    · rw [Function.update_noteq hx, ih x]
      by_cases hm : x % 2^l = c8 ∧ x / 2^l < k
      · rw [if_pos hm, if_pos ⟨hm.1, by omega⟩]
      · by_cases hm2 : x % 2^l = c8 ∧ x / 2^l < k + 1
        · exfalso
          have hdk : x / 2^l = k := by omega
          apply hx
          rw [hidx, ← hm2.1, ← hdk]
          have hdm := Nat.div_add_mod' x (2^l)
          omega
        · rw [if_neg hm, if_neg hm2]

/-! ## Symbol-array write positions -/

theorem symIdxArr_mono (lengths : Nat → Nat) (n : Nat) {a b : Nat} (h : a ≤ b) :
    symIdxArr lengths n a ≤ symIdxArr lengths n b := by
  induction b with
  | zero =>
    have : a = 0 := by omega
    subst this
    exact le_refl _
  | succ b ih =>
    rcases Nat.eq_or_lt_of_le h with h' | h'
    · subst h'; exact le_refl _
    · have := ih (Nat.lt_succ_iff.mp h')
      show _ ≤ symIdxArr lengths n b + cnt lengths n b
      omega

/-- The per-length blocks of `syms` are disjoint: the block of length `a`
ends before the block of any longer length begins. -/
theorem symIdxArr_block (lengths : Nat → Nat) (n : Nat) {a b : Nat} (h : a < b) :
    symIdxArr lengths n a + cnt lengths n a ≤ symIdxArr lengths n b := by
  have h1 : symIdxArr lengths n (a+1) = symIdxArr lengths n a + cnt lengths n a := rfl
  have h2 := symIdxArr_mono lengths n (show a + 1 ≤ b from h)
  omega

/-- Distinct coded symbols are stored at distinct `syms` positions. -/
theorem syms_pos_inj (lengths : Nat → Nat) (n : Nat) {j j' : Nat}
    (hj : j < n) (hj' : j' < n) (hne : j ≠ j')
    (hp : 0 < lengths j) (hp' : 0 < lengths j') :
    symIdxArr lengths n (lengths j) + countFold lengths j (lengths j) ≠
    symIdxArr lengths n (lengths j') + countFold lengths j' (lengths j') := by
  rcases Nat.lt_trichotomy (lengths j) (lengths j') with hl | hl | hl
  · -- block of lengths j ends before block of lengths j' begins
    have h1 : countFold lengths j (lengths j) < cnt lengths n (lengths j) := by
      have := countFold_lt lengths hj
      unfold cnt
      simp [show lengths j ≠ 0 by omega]
      exact this
    have h2 := symIdxArr_block lengths n hl
    omega
  · -- same length: ranks differ
    rcases Nat.lt_or_ge j j' with h | h
    · have hs := countFold_strict lengths h hl
      rw [hl] at hs ⊢
      omega
    · have hj2 : j' < j := by omega
      have hs := countFold_strict lengths hj2 hl.symm
      rw [← hl] at hs ⊢
      omega
  · have h1 : countFold lengths j' (lengths j') < cnt lengths n (lengths j') := by
      have := countFold_lt lengths hj'
      unfold cnt
      simp [show lengths j' ≠ 0 by omega]
      exact this
    have h2 := symIdxArr_block lengths n hl
    omega

/-! ## No two codewords occupy the same stream window -/

/-- Master disjointness lemma: a stream word carrying the codeword of symbol
`i` in its low bits cannot agree, on the low `lengths j` bits, with the
codeword pattern of a different symbol `j` of at most that length. -/
theorem codeword_window_no_other (lengths : Nat → Nat) (n : Nat)
    (hlen : ∀ i, i < n → lengths i ≤ 16) (hkraft : kraftSum lengths n ≤ 2^16)
    {i j rest : Nat} (hi : i < n) (hj : j < n) (hne : j ≠ i)
    (hpi : 0 < lengths i) (hpj : 0 < lengths j) (hle : lengths j ≤ lengths i) :
    (rev (lengths i) (canonCode lengths n i) + rest * 2^(lengths i)) % 2^(lengths j)
      ≠ rev (lengths j) (canonCode lengths n j) := by
  intro hcontra
  have hdvd : (2:Nat)^(lengths j) ∣ 2^(lengths i) := pow_dvd_pow 2 hle
  have h1 : (rev (lengths i) (canonCode lengths n i) + rest * 2^(lengths i)) % 2^(lengths j)
      = rev (lengths i) (canonCode lengths n i) % 2^(lengths j) := by
    rcases hdvd with ⟨c, hc⟩
    rw [hc, show rest * (2^(lengths j) * c) = rest * c * 2^(lengths j) by ring,
        Nat.add_mul_mod_self_right]
  rw [h1, rev_mod_pow _ hle] at hcontra
  have hci : canonCode lengths n i < 2^(lengths i) := canonCode_lt_pow lengths n hlen hkraft hi hpi
  have hcj : canonCode lengths n j < 2^(lengths j) := canonCode_lt_pow lengths n hlen hkraft hj hpj
  have hq : canonCode lengths n i / 2^(lengths i - lengths j) < 2^(lengths j) := by
    apply Nat.div_lt_of_lt_mul
    calc canonCode lengths n i < 2^(lengths i) := hci
      _ = 2^(lengths i - lengths j) * 2^(lengths j) := by rw [← pow_add]; congr 1; omega
  have heq := rev_inj hq hcj hcontra
  exact canon_prefix_free lengths n hj hne hpj hle heq

/-- No 8-bit index can match the fast-table patterns of two distinct coded
symbols. -/
theorem patterns_disjoint (lengths : Nat → Nat) (n : Nat)
    (hlen : ∀ i, i < n → lengths i ≤ 16) (hkraft : kraftSum lengths n ≤ 2^16)
    {j j' idx : Nat} (hj : j < n) (hj' : j' < n) (hne : j ≠ j')
    (hpj : 0 < lengths j) (hpj' : 0 < lengths j')
    (hm : idx % 2^(lengths j) = rev (lengths j) (canonCode lengths n j))
    (hm' : idx % 2^(lengths j') = rev (lengths j') (canonCode lengths n j')) :
    False := by
  rcases Nat.le_total (lengths j) (lengths j') with hle | hle
  · -- express idx as j'-codeword plus padding and compare against j
    have hidx : idx = rev (lengths j') (canonCode lengths n j')
        + (idx / 2^(lengths j')) * 2^(lengths j') := by
      have := Nat.div_add_mod' idx (2^(lengths j'))
      omega
    apply codeword_window_no_other lengths n hlen hkraft hj' hj hne hpj' hpj hle
    rw [← hidx]
    exact hm
  · have hidx : idx = rev (lengths j) (canonCode lengths n j)
        + (idx / 2^(lengths j)) * 2^(lengths j) := by
      have := Nat.div_add_mod' idx (2^(lengths j))
      omega
    apply codeword_window_no_other lengths n hlen hkraft hj hj' (Ne.symm hne) hpj hpj' hle
    rw [← hidx]
    exact hm'

/-! ## The build-loop invariant -/

/-- Symbol `j`'s codeword occupies fast-table index `idx`: `j` is coded,
short (at most `FAST_TABLE_BITS` bits), and the low `lengths j` bits of
`idx` are the LSB image of its canonical codeword. -/
def fastPat (lengths : Nat → Nat) (n j idx : Nat) : Prop :=
  0 < lengths j ∧ lengths j ≤ 8 ∧
    idx % 2^(lengths j) = rev (lengths j) (canonCode lengths n j)

instance fastPat.dec (lengths : Nat → Nat) (n j idx : Nat) :
    Decidable (fastPat lengths n j idx) := by
  unfold fastPat
  infer_instance

theorem countFold_succ (lengths : Nat → Nat) (m l : Nat) :
    countFold lengths (m+1) l =
      if l = lengths m then countFold lengths m l + 1 else countFold lengths m l := rfl

theorem canonCode_def (lengths : Nat → Nat) (n m : Nat) :
    canonCode lengths n m
      = codeArr lengths n (lengths m) + countFold lengths m (lengths m) := rfl

theorem buildStep_zero {lengths : Nat → Nat} {st : BuildState} {i : Nat}
    (h0 : lengths i = 0) : buildStep lengths st i = st := by
  unfold buildStep
  simp [h0]

theorem buildStep_long {lengths : Nat → Nat} {st : BuildState} {i : Nat}
    (h0 : lengths i ≠ 0) (h8 : ¬ lengths i ≤ 8) :
    buildStep lengths st i =
      { st with
        syms := Function.update st.syms (st.symIdx (lengths i)) i
        symIdx := Function.update st.symIdx (lengths i) (st.symIdx (lengths i) + 1) } := by
  unfold buildStep
  simp [h0, h8]

theorem buildStep_short {lengths : Nat → Nat} {st : BuildState} {i : Nat}
    (h0 : lengths i ≠ 0) (h8 : lengths i ≤ 8) :
    buildStep lengths st i =
      { code := Function.update st.code (lengths i) (st.code (lengths i) + 1)
        symIdx := Function.update st.symIdx (lengths i) (st.symIdx (lengths i) + 1)
        syms := Function.update st.syms (st.symIdx (lengths i)) i
        fast := fillPads st.fast (huff_rev8 (st.code (lengths i)) (lengths i))
                  (lengths i) i (2^(8 - lengths i)) } := by
  unfold buildStep
  simp [h0, h8]

/-- The state of `huff_init_lsb`'s fill loop after `m` of `n` iterations:
the running `code[]`/`sym_idx[]` counters lead the precomputed first
codes/indices by the number of same-length symbols already placed, every
placed symbol sits at its canonical `syms` slot, and the fast table holds
exactly the already-placed short codewords (padded over all high bits). -/
theorem buildLoop_inv (lengths : Nat → Nat) (n : Nat)
    (hlen : ∀ i, i < n → lengths i ≤ 16) (hkraft : kraftSum lengths n ≤ 2^16) :
    ∀ m, m ≤ n →
    (∀ l, 1 ≤ l → l ≤ 8 →
        (buildLoop lengths n m).code l = codeArr lengths n l + countFold lengths m l) ∧
    (∀ l, 1 ≤ l →
        (buildLoop lengths n m).symIdx l = symIdxArr lengths n l + countFold lengths m l) ∧
    (∀ j, j < m → 0 < lengths j →
        (buildLoop lengths n m).syms
          (symIdxArr lengths n (lengths j) + countFold lengths j (lengths j)) = j) ∧
    (∀ idx, idx < 256 →
        (∀ j, j < m → fastPat lengths n j idx →
            ((buildLoop lengths n m).fast idx).len = lengths j ∧
            ((buildLoop lengths n m).fast idx).sym = j) ∧
        ((∀ j, j < m → ¬ fastPat lengths n j idx) →
            (buildLoop lengths n m).fast idx = { len := 0, rev := 0, sym := 0 })) := by
  intro m
  induction m with
  | zero =>
    intro _
    refine ⟨fun l _ _ => by simp [buildLoop, countFold],
            fun l _ => by simp [buildLoop, countFold],
            fun j hj _ => absurd hj (Nat.not_lt_zero j),
            fun idx _ => ⟨fun j hj _ => absurd hj (Nat.not_lt_zero j),
                          fun _ => rfl⟩⟩
  | succ m ih =>
    intro hm1
    have hmn : m < n := hm1
    obtain ⟨IH1, IH2, IH3, IH4⟩ := ih (Nat.le_of_succ_le hm1)
    have hloop : buildLoop lengths n (m+1) = buildStep lengths (buildLoop lengths n m) m := rfl
    by_cases h0 : lengths m = 0
    · -- zero-length symbols are skipped entirely
      rw [hloop, buildStep_zero h0]
      have hcf : ∀ l, 1 ≤ l → countFold lengths (m+1) l = countFold lengths m l := by
        intro l hl
        rw [countFold_succ]
        simp [show l ≠ lengths m by omega]
      refine ⟨fun l hl h8 => by rw [hcf l hl]; exact IH1 l hl h8,
              fun l hl => by rw [hcf l hl]; exact IH2 l hl,
              fun j hj hpj => ?_,
              fun idx hidx => ⟨fun j hj hpat => ?_, fun hno => ?_⟩⟩
      · rcases Nat.lt_succ_iff_lt_or_eq.mp hj with hj' | hj'
        · exact IH3 j hj' hpj
        · subst hj'; omega
      · rcases Nat.lt_succ_iff_lt_or_eq.mp hj with hj' | hj'
        · exact (IH4 idx hidx).1 j hj' hpat
        · subst hj'
          exact absurd hpat.1 (by omega)
      · refine (IH4 idx hidx).2 (fun j hj => hno j (Nat.lt_succ_of_lt hj))
    · -- symbol m is coded
      have hpm : 0 < lengths m := by omega
      have hsym : (buildLoop lengths n m).symIdx (lengths m)
          = symIdxArr lengths n (lengths m) + countFold lengths m (lengths m) :=
        IH2 (lengths m) hpm
      have hsyms_inv : ∀ j, j < m + 1 → 0 < lengths j →
          Function.update (buildLoop lengths n m).syms
              ((buildLoop lengths n m).symIdx (lengths m)) m
            (symIdxArr lengths n (lengths j) + countFold lengths j (lengths j)) = j := by
        intro j hj hpj
        rcases Nat.lt_succ_iff_lt_or_eq.mp hj with hj' | hj'
        · have hne := syms_pos_inj lengths n (show j < n by omega) hmn
            (show j ≠ m by omega) hpj hpm
          rw [hsym, Function.update_noteq hne]
          exact IH3 j hj' hpj
        · subst hj'
          rw [hsym, Function.update_same]
      have hsymIdx_inv : ∀ l, 1 ≤ l →
          Function.update (buildLoop lengths n m).symIdx (lengths m)
              ((buildLoop lengths n m).symIdx (lengths m) + 1) l
            = symIdxArr lengths n l + countFold lengths (m+1) l := by
        intro l hl
        by_cases heq : l = lengths m
        · subst heq
          rw [Function.update_same, hsym, countFold_succ, if_pos rfl]
          omega
        · rw [Function.update_noteq heq, countFold_succ, if_neg heq]
          exact IH2 l hl
      by_cases h8 : lengths m ≤ 8
      · -- short code: the fast table gains the padded images of codeword m
        rw [hloop, buildStep_short h0 h8]
        dsimp only
        have hcodem : (buildLoop lengths n m).code (lengths m) = canonCode lengths n m := by
          rw [IH1 (lengths m) hpm h8, canonCode_def]
        have hcm_lt : canonCode lengths n m < 2^(lengths m) :=
          canonCode_lt_pow lengths n hlen hkraft hmn hpm
        have hcode8 : huff_rev8 ((buildLoop lengths n m).code (lengths m)) (lengths m)
            = rev (lengths m) (canonCode lengths n m) := by
          rw [hcodem]
          exact huff_rev8_eq_rev h8 hcm_lt
        have hc8lt : rev (lengths m) (canonCode lengths n m) < 2^(lengths m) := rev_lt _ _
        rw [hcode8]
        refine ⟨?_, hsymIdx_inv, hsyms_inv, ?_⟩
        · intro l hl hl8
          by_cases heq : l = lengths m
          · subst heq
            rw [Function.update_same, hcodem, countFold_succ, if_pos rfl, canonCode_def]
            omega
          · rw [Function.update_noteq heq, countFold_succ, if_neg heq]
            exact IH1 l hl hl8
        · intro idx hidx
          have hdiv : idx / 2^(lengths m) < 2^(8 - lengths m) := by
            apply Nat.div_lt_of_lt_mul
            calc idx < 256 := hidx
              _ = 2^(lengths m) * 2^(8 - lengths m) := by
                  rw [← pow_add]
                  have : lengths m + (8 - lengths m) = 8 := by omega
                  rw [this]
                  norm_num
          have hget := fillPads_get (buildLoop lengths n m).fast m
            (hcode8 ▸ hc8lt) (2^(8 - lengths m)) idx
          rw [hcode8] at hget
          constructor
          · intro j hj hpat
            by_cases hmatch : idx % 2^(lengths m) = rev (lengths m) (canonCode lengths n m)
            · rw [hget, if_pos ⟨hmatch, hdiv⟩]
              rcases Nat.lt_succ_iff_lt_or_eq.mp hj with hj' | hj'
              · exact absurd (patterns_disjoint lengths n hlen hkraft
                  (show j < n by omega) hmn (show j ≠ m by omega)
                  hpat.1 hpm hpat.2.2 hmatch) (by simp)
              · subst hj'
                exact ⟨rfl, rfl⟩
            · rw [hget, if_neg (by tauto)]
              rcases Nat.lt_succ_iff_lt_or_eq.mp hj with hj' | hj'
              · exact (IH4 idx hidx).1 j hj' hpat
              · subst hj'
                exact absurd hpat.2.2 hmatch
          · intro hno
            have hnm : ¬ fastPat lengths n m idx := hno m (Nat.lt_succ_self m)
            have hnomatch : ¬ idx % 2^(lengths m) = rev (lengths m) (canonCode lengths n m) := by
              intro hc
              exact hnm ⟨hpm, h8, hc⟩
            rw [hget, if_neg (by tauto)]
            exact (IH4 idx hidx).2 (fun j hj => hno j (Nat.lt_succ_of_lt hj))
      · -- long code: only `syms` and `sym_idx` change
        rw [hloop, buildStep_long h0 h8]
        dsimp only
        have hcf : ∀ l, l ≤ 8 → countFold lengths (m+1) l = countFold lengths m l := by
          intro l hl
          rw [countFold_succ]
          simp [show l ≠ lengths m by omega]
        refine ⟨fun l hl hl8 => by rw [hcf l hl8]; exact IH1 l hl hl8,
                hsymIdx_inv, hsyms_inv,
                fun idx hidx => ⟨fun j hj hpat => ?_, fun hno => ?_⟩⟩
        · rcases Nat.lt_succ_iff_lt_or_eq.mp hj with hj' | hj'
          · exact (IH4 idx hidx).1 j hj' hpat
          · subst hj'
            exact absurd hpat.2.1 h8
        · exact (IH4 idx hidx).2 (fun j hj => hno j (Nat.lt_succ_of_lt hj))

/-! ## The finished table -/

theorem init_sentinels (lengths : Nat → Nat) (symbols : Option (Nat → Nat))
    (n l : Nat) :
    (huff_init_lsb lengths symbols n).sentinels l = sentinelVal lengths n l % 2^16 := rfl

theorem init_offsets (lengths : Nat → Nat) (symbols : Option (Nat → Nat))
    (n l : Nat) :
    (huff_init_lsb lengths symbols n).offsets l =
      (((symIdxArr lengths n l : Int) - (codeArr lengths n l : Int)) % 2^16).toNat := rfl

theorem init_syms (lengths : Nat → Nat) (symbols : Option (Nat → Nat)) (n : Nat) :
    (huff_init_lsb lengths symbols n).syms = (buildLoop lengths n n).syms := rfl

theorem init_fast (lengths : Nat → Nat) (symbols : Option (Nat → Nat)) (n : Nat) :
    (huff_init_lsb lengths symbols n).fast = fillRev (buildLoop lengths n n).fast := rfl

/-- A fast-table entry of a built table, at an index covered by the codeword
of a (short) symbol `j`. -/
theorem init_fast_hit (lengths : Nat → Nat) (symbols : Option (Nat → Nat)) (n : Nat)
    (hlen : ∀ i, i < n → lengths i ≤ 16) (hkraft : kraftSum lengths n ≤ 2^16)
    {j idx : Nat} (hj : j < n) (hidx : idx < 256)
    (hpat : fastPat lengths n j idx) :
    ((huff_init_lsb lengths symbols n).fast idx).len = lengths j ∧
    ((huff_init_lsb lengths symbols n).fast idx).sym = j := by
  have hinv := (buildLoop_inv lengths n hlen hkraft n (le_refl n)).2.2.2 idx hidx
  have h := hinv.1 j hj hpat
  have hne : ((buildLoop lengths n n).fast idx).len ≠ 0 := by
    rw [h.1]
    exact Nat.pos_iff_ne_zero.mp hpat.1
  rw [init_fast]
  simp only [fillRev]
  rw [if_neg hne]
  exact h

/-- A fast-table entry of a built table at an index covered by no short
codeword: a miss entry, carrying the bit-reversed index. -/
theorem init_fast_miss (lengths : Nat → Nat) (symbols : Option (Nat → Nat)) (n : Nat)
    (hlen : ∀ i, i < n → lengths i ≤ 16) (hkraft : kraftSum lengths n ≤ 2^16)
    {idx : Nat} (hidx : idx < 256)
    (hno : ∀ j, j < n → ¬ fastPat lengths n j idx) :
    (huff_init_lsb lengths symbols n).fast idx
      = { len := 0, rev := huff_rev8full idx, sym := 0 } := by
  have hinv := (buildLoop_inv lengths n hlen hkraft n (le_refl n)).2.2.2 idx hidx
  have h := hinv.2 hno
  rw [init_fast]
  simp only [fillRev, h]
  simp

/-! ## Bounds on the symbol-array positions -/

theorem countFold_le_self (lengths : Nat → Nat) : ∀ m l, countFold lengths m l ≤ m := by
  intro m
  induction m with
  | zero => intro l; exact le_refl 0
  | succ m ih =>
    intro l
    rw [countFold_succ]
    have := ih l
    split <;> omega

theorem symIdxArr_step (lengths : Nat → Nat) (m : Nat) : ∀ l,
    symIdxArr lengths (m+1) l = symIdxArr lengths m l +
      (if 0 < lengths m ∧ lengths m < l then 1 else 0) := by
  intro l
  induction l with
  | zero =>
    have : ¬ (0 < lengths m ∧ lengths m < 0) := by omega
    simp [symIdxArr, this]
  | succ l ih =>
    show symIdxArr lengths (m+1) l + cnt lengths (m+1) l
        = symIdxArr lengths m l + cnt lengths m l + _
    rw [ih]
    have hc : cnt lengths (m+1) l = cnt lengths m l +
        (if l = lengths m ∧ l ≠ 0 then 1 else 0) := by
      unfold cnt
      by_cases h0 : l = 0
      · simp [h0]
      · simp only [h0, if_neg, ite_false]
        rw [countFold_succ]
        by_cases he : l = lengths m
        · have hm0 : lengths m ≠ 0 := by omega
          simp [he, h0, hm0]
        · simp [he, h0]
    rw [hc]
    by_cases h1 : 0 < lengths m ∧ lengths m < l
    · have h2 : ¬ (l = lengths m ∧ l ≠ 0) := by omega
      have h3 : 0 < lengths m ∧ lengths m < l + 1 := by omega
      simp only [if_pos h1, if_pos h3, if_neg h2]
      omega
    · by_cases h2 : l = lengths m ∧ l ≠ 0
      · have h3 : 0 < lengths m ∧ lengths m < l + 1 := by omega
        simp only [if_neg h1, if_pos h2, if_pos h3]
        omega
      · have h3 : ¬ (0 < lengths m ∧ lengths m < l + 1) := by omega
        simp only [if_neg h1, if_neg h2, if_neg h3]
        omega

theorem symIdxArr_le_self (lengths : Nat → Nat) : ∀ m l, symIdxArr lengths m l ≤ m := by
  intro m
  induction m with
  | zero =>
    intro l
    induction l with
    | zero => exact le_refl 0
    | succ l ih =>
      show symIdxArr lengths 0 l + cnt lengths 0 l ≤ 0
      have : cnt lengths 0 l = 0 := by
        unfold cnt
        split <;> rfl
      omega
  | succ m ih =>
    intro l
    rw [symIdxArr_step]
    have := ih l
    split <;> omega

/-! ## Decoding a canonical codeword -/

theorem huff_decode_lsb_eq (t : huff_table_t) (w bl : Nat) :
    huff_decode_lsb t w bl =
      if (t.fast (w % 256)).len ≠ 0 then
        (some (t.fast (w % 256)).sym, (t.fast (w % 256)).len)
      else checkLengths t (t.fast (w % 256)).rev ((w / 256) % 2^16) 9 8 := rfl

/-- A word whose low bits carry the codeword of a short symbol decodes to it
through the fast path. -/
theorem decode_fast_hit (lengths : Nat → Nat) (symbols : Option (Nat → Nat)) (n : Nat)
    (hlen : ∀ i, i < n → lengths i ≤ 16) (hkraft : kraftSum lengths n ≤ 2^16)
    {i : Nat} (hi : i < n) (hpos : 0 < lengths i) (h8 : lengths i ≤ 8) (w bl : Nat)
    (hw : w % 2^(lengths i) = rev (lengths i) (canonCode lengths n i)) :
    huff_decode_lsb (huff_init_lsb lengths symbols n) w bl = (some i, lengths i) := by
  have hdvd : (2:Nat)^(lengths i) ∣ 256 := by
    have h256 : (256:Nat) = 2^8 := by norm_num
    rw [h256]
    exact pow_dvd_pow 2 h8
  have hm : (w % 256) % 2^(lengths i) = rev (lengths i) (canonCode lengths n i) := by
    rw [Nat.mod_mod_of_dvd w hdvd, hw]
  have hpat : fastPat lengths n i (w % 256) := ⟨hpos, h8, hm⟩
  have hidx : w % 256 < 256 := Nat.mod_lt w (by norm_num)
  have hentry := init_fast_hit lengths symbols n hlen hkraft hi hidx hpat
  rw [huff_decode_lsb_eq, if_pos (by rw [hentry.1]; omega), hentry.1, hentry.2]

/-- One slow-path iteration reads the correct stream bit: for `9 ≤ l ≤ L`,
bit `l-1` of the word (as the decoder extracts it from its 16-bit `bits`
local) is bit `L - l` of the MSB-canonical code. -/
theorem bit_extract {l L c r : Nat} (h9 : 9 ≤ l) (hle : l ≤ L) (hL : L ≤ 16) :
    (((rev L c + r * 2^L) / 256 % 2^16) / 2^(l - 9)) % 2 = (c / 2^(L - l)) % 2 := by
  set w := rev L c + r * 2^L with hwdef
  have hstep1 : (w / 256 % 2^16) / 2^(l - 9) % 2 = (w / 256 / 2^(l - 9)) % 2 := by
    have hsplit : (2:Nat)^16 = 2^(l-9) * 2^(16 - (l-9)) := by
      rw [← pow_add]; congr 1; omega
    rw [hsplit, Nat.mod_mul_right_div_self]
    have hdvd : (2:Nat) ∣ 2^(16 - (l-9)) :=
      dvd_pow_self 2 (show 16 - (l-9) ≠ 0 by omega)
    exact Nat.mod_mod_of_dvd _ hdvd
  have hstep2 : w / 256 / 2^(l - 9) = w / 2^(l - 1) := by
    rw [Nat.div_div_eq_div_mul]
    congr 1
    have h256 : (256:Nat) = 2^8 := by norm_num
    rw [h256, ← pow_add]
    congr 1
    omega
  have hstep3 : w / 2^(l - 1) % 2 = (rev L c / 2^(l - 1)) % 2 := by
    have hsplit : r * 2^L = (r * 2^(L - l) * 2) * 2^(l - 1) := by
      have : (2:Nat)^L = 2^(L - l) * 2 * 2^(l - 1) := by
        rw [mul_assoc, mul_comm 2 (2^(l-1)), ← pow_succ, ← pow_add]
        congr 1
        omega
      rw [this]
      ring
    rw [hwdef, hsplit, Nat.add_mul_div_right _ _ (Nat.pos_pow_of_pos _ (by norm_num)),
        Nat.add_mul_mod_self_right]
  have hstep4 : rev L c / 2^(l - 1) = rev (L - l + 1) c := by
    have := rev_div_pow (n := L) (k := L - l + 1) c (by omega)
    rw [show L - (L - l + 1) = l - 1 by omega] at this
    exact this
  have hstep5 : rev (L - l + 1) c % 2 = (c / 2^(L - l)) % 2 := by
    have := rev_mod_two (n := L - l + 1) c (by omega)
    rw [show L - l + 1 - 1 = L - l by omega] at this
    exact this
  rw [hstep1, hstep2, hstep3, hstep4, hstep5]

/-- The wrapped `uint16_t` sum `offsets[l] + code` lands on the canonical
`syms` slot of the decoded symbol. -/
theorem offsets_index (lengths : Nat → Nat) (symbols : Option (Nat → Nat)) (n : Nat)
    (hn : n ≤ 288) {i : Nat} (hi : i < n)
    (hb : codeArr lengths n (lengths i) ≤ 2^16) :
    ((huff_init_lsb lengths symbols n).offsets (lengths i) + canonCode lengths n i) % 2^16
      = symIdxArr lengths n (lengths i) + countFold lengths i (lengths i) := by
  rw [init_offsets, canonCode_def]
  have ha : symIdxArr lengths n (lengths i) ≤ 288 :=
    le_trans (symIdxArr_le_self lengths n (lengths i)) hn
  have hr : countFold lengths i (lengths i) ≤ 288 :=
    le_trans (countFold_le_self lengths i (lengths i)) (by omega)
  have h65536 : (2:Nat)^16 = 65536 := by norm_num
  have h65536' : (2:Int)^16 = 65536 := by norm_num
  rw [h65536, h65536']
  set a := symIdxArr lengths n (lengths i)
  set b := codeArr lengths n (lengths i)
  set r := countFold lengths i (lengths i)
  have hbb : b ≤ 65536 := by
    have := hb
    rw [h65536] at this
    exact this
  omega

/-- A word carrying a codeword longer than 8 bits misses the fast table. -/
theorem long_codeword_miss (lengths : Nat → Nat) (symbols : Option (Nat → Nat)) (n : Nat)
    (hlen : ∀ i, i < n → lengths i ≤ 16) (hkraft : kraftSum lengths n ≤ 2^16)
    {i : Nat} (hi : i < n) (h9 : 9 ≤ lengths i) (rest : Nat) :
    (huff_init_lsb lengths symbols n).fast
        ((rev (lengths i) (canonCode lengths n i) + rest * 2^(lengths i)) % 256)
      = { len := 0,
          rev := huff_rev8full
            ((rev (lengths i) (canonCode lengths n i) + rest * 2^(lengths i)) % 256),
          sym := 0 } := by
  set w := rev (lengths i) (canonCode lengths n i) + rest * 2^(lengths i) with hwdef
  apply init_fast_miss lengths symbols n hlen hkraft (Nat.mod_lt w (by norm_num))
  intro j hj hpat
  obtain ⟨hpj, hj8, hm⟩ := hpat
  have hdvd : (2:Nat)^(lengths j) ∣ 256 := by
    have h256 : (256:Nat) = 2^8 := by norm_num
    rw [h256]
    exact pow_dvd_pow 2 hj8
  rw [Nat.mod_mod_of_dvd w hdvd] at hm
  have hne : j ≠ i := by
    intro h
    subst h
    omega
  exact codeword_window_no_other lengths n hlen hkraft hi hj hne
    (by omega) hpj (by omega) hm

/-- The `rev` field of the missed entry is the top 8 bits of the canonical
code. -/
theorem miss_rev {lengths : Nat → Nat} {n i : Nat} (rest : Nat)
    (h9 : 9 ≤ lengths i) (hL : lengths i ≤ 16)
    (hcc : canonCode lengths n i < 2^(lengths i)) :
    huff_rev8full
        ((rev (lengths i) (canonCode lengths n i) + rest * 2^(lengths i)) % 256)
      = canonCode lengths n i / 2^(lengths i - 8) := by
  set c := canonCode lengths n i
  have h256 : (256:Nat) = 2^8 := by norm_num
  have hmod : (rev (lengths i) c + rest * 2^(lengths i)) % 256 = rev (lengths i) c % 2^8 := by
    rw [h256]
    have hsplit : rest * 2^(lengths i) = (rest * 2^(lengths i - 8)) * 2^8 := by
      rw [mul_assoc, ← pow_add]
      congr 2
      omega
    rw [hsplit, Nat.add_mul_mod_self_right]
  have hdiv : c / 2^(lengths i - 8) < 2^8 := by
    apply Nat.div_lt_of_lt_mul
    calc c < 2^(lengths i) := hcc
      _ = 2^(lengths i - 8) * 2^8 := by rw [← pow_add]; congr 1; omega
  rw [hmod, rev_mod_pow c (show 8 ≤ lengths i by omega)]
  unfold huff_rev8full
  rw [Nat.mod_eq_of_lt (lt_of_lt_of_le (rev_lt _ _) (by norm_num))]
  exact rev_rev hdiv

/-- The slow-path loop, entered at length `l` with the first `l-1` code bits
already accumulated, terminates at exactly the codeword's length and yields
its symbol.  (`lengths i ≤ 15` keeps every consulted sentinel below `2^16`,
so the `uint16_t` stores do not wrap.) -/
theorem checkLengths_codeword (lengths : Nat → Nat) (symbols : Option (Nat → Nat)) (n : Nat)
    (hn : n ≤ 288)
    (hlen15 : ∀ i, i < n → lengths i ≤ 15) (hkraft : kraftSum lengths n ≤ 2^16)
    {i : Nat} (hi : i < n) (h9 : 9 ≤ lengths i) (rest : Nat) :
    ∀ d l, 9 ≤ l → l ≤ lengths i → lengths i - l = d →
      checkLengths (huff_init_lsb lengths symbols n)
        (canonCode lengths n i / 2^(lengths i - l + 1))
        ((((rev (lengths i) (canonCode lengths n i) + rest * 2^(lengths i)) / 256) % 2^16)
          / 2^(l - 9))
        l (17 - l)
      = (some i, lengths i) := by
  have hlen : ∀ k, k < n → lengths k ≤ 16 := fun k hk => le_trans (hlen15 k hk) (by norm_num)
  have hpos : 0 < lengths i := by omega
  have hcc : canonCode lengths n i < 2^(lengths i) :=
    canonCode_lt_pow lengths n hlen hkraft hi hpos
  have hccb : canonCode lengths n i < 2^16 :=
    lt_of_lt_of_le hcc (Nat.pow_le_pow_right (by norm_num) (hlen i hi))
  have hsent : ∀ l, l ≤ 15 →
      (huff_init_lsb lengths symbols n).sentinels l = sentinelVal lengths n l := by
    intro l hl
    rw [init_sentinels]
    apply Nat.mod_eq_of_lt
    calc sentinelVal lengths n l ≤ 2^l := sentinelVal_le_pow lengths n hlen hkraft (by omega)
      _ < 2^16 := Nat.pow_lt_pow_right (by norm_num) (by omega)
  intro d
  induction d with
  | zero =>
    intro l hl9 hlle hd
    obtain rfl : l = lengths i := by omega
    have hub : lengths i ≤ 15 := hlen15 i hi
    rw [show 17 - lengths i = (16 - lengths i) + 1 by omega]
    show (let code' := _; if code' < _ then _ else _) = _
    have hbit := bit_extract (c := canonCode lengths n i) (r := rest)
      hl9 (le_refl (lengths i)) (hlen i hi)
    rw [show lengths i - lengths i = 0 by omega] at hbit
    simp only [pow_zero, Nat.div_one] at hbit
    have hcode' : canonCode lengths n i / 2^(lengths i - lengths i + 1) * 2
        + (((rev (lengths i) (canonCode lengths n i) + rest * 2^(lengths i)) / 256 % 2^16)
            / 2^(lengths i - 9)) % 2
        = canonCode lengths n i := by
      rw [hbit, show lengths i - lengths i + 1 = 1 by omega, pow_one]
      have := Nat.div_add_mod' (canonCode lengths n i) 2
      omega
    show (if (canonCode lengths n i / 2^(lengths i - lengths i + 1) * 2 + _ % 2) % 2^16
          < (huff_init_lsb lengths symbols n).sentinels (lengths i) then _ else _) = _
    rw [hcode', Nat.mod_eq_of_lt hccb]
    have hlt : canonCode lengths n i
        < (huff_init_lsb lengths symbols n).sentinels (lengths i) := by
      rw [hsent (lengths i) (hlen15 i hi)]
      exact canonCode_lt_sentinelVal lengths n hi hpos
    rw [if_pos hlt]
    have hoff : ((huff_init_lsb lengths symbols n).offsets (lengths i)
          + canonCode lengths n i) % 2^16
        = symIdxArr lengths n (lengths i) + countFold lengths i (lengths i) := by
      have hb : codeArr lengths n (lengths i) ≤ 2^16 := by
        calc codeArr lengths n (lengths i) ≤ sentinelVal lengths n (lengths i) :=
              codeArr_le_sentinelVal lengths n _
          _ ≤ 2^(lengths i) := sentinelVal_le_pow lengths n hlen hkraft (hlen i hi)
          _ ≤ 2^16 := Nat.pow_le_pow_right (by norm_num) (hlen i hi)
      exact offsets_index lengths symbols n hn hi hb
    rw [hoff, init_syms]
    have hsyms := (buildLoop_inv lengths n hlen hkraft n (le_refl n)).2.2.1 i hi hpos
    rw [hsyms]
  | succ d ihd =>
    intro l hl9 hlle hd
    have hllt : l < lengths i := by omega
    have hl15 : l ≤ 15 := by
      have := hlen15 i hi
      omega
    rw [show 17 - l = (16 - l) + 1 by omega]
    show (let code' := _; if code' < _ then _ else _) = _
    have hbit := bit_extract (c := canonCode lengths n i) (r := rest)
      hl9 (le_of_lt hllt) (hlen i hi)
    have hcode' : canonCode lengths n i / 2^(lengths i - l + 1) * 2
        + (((rev (lengths i) (canonCode lengths n i) + rest * 2^(lengths i)) / 256 % 2^16)
            / 2^(l - 9)) % 2
        = canonCode lengths n i / 2^(lengths i - l) := by
      rw [hbit]
      have hdd : canonCode lengths n i / 2^(lengths i - l + 1)
          = canonCode lengths n i / 2^(lengths i - l) / 2 := by
        rw [Nat.div_div_eq_div_mul, ← pow_succ]
      rw [hdd]
      have := Nat.div_add_mod' (canonCode lengths n i / 2^(lengths i - l)) 2
      omega
    have hq_lt : canonCode lengths n i / 2^(lengths i - l) < 2^16 :=
      lt_of_le_of_lt (Nat.div_le_self _ _) hccb
    show (if (canonCode lengths n i / 2^(lengths i - l + 1) * 2 + _ % 2) % 2^16
          < (huff_init_lsb lengths symbols n).sentinels l then _ else _) = _
    rw [hcode', Nat.mod_eq_of_lt hq_lt]
    have hge : ¬ (canonCode lengths n i / 2^(lengths i - l)
        < (huff_init_lsb lengths symbols n).sentinels l) := by
      rw [hsent l hl15]
      have hdom : sentinelVal lengths n l
          ≤ codeArr lengths n (lengths i) / 2^(lengths i - l) := by
        have := sentinelVal_le_codeArr_shift lengths n (lengths i - l - 1) l
        rw [show l + (lengths i - l - 1) + 1 = lengths i by omega,
            show lengths i - l - 1 + 1 = lengths i - l by omega] at this
        exact this
      have hmono : codeArr lengths n (lengths i) / 2^(lengths i - l)
          ≤ canonCode lengths n i / 2^(lengths i - l) :=
        Nat.div_le_div_right (Nat.le_add_right _ _)
      omega
    rw [if_neg hge]
    have hnext := ihd (l + 1) (by omega) (by omega) (by omega)
    rw [show 17 - (l + 1) = 16 - l by omega] at hnext
    rw [show lengths i - (l + 1) + 1 = lengths i - l by omega] at hnext
    have hbits : (((rev (lengths i) (canonCode lengths n i) + rest * 2^(lengths i)) / 256
          % 2^16) / 2^(l - 9)) / 2
        = (((rev (lengths i) (canonCode lengths n i) + rest * 2^(lengths i)) / 256
          % 2^16) / 2^(l + 1 - 9)) := by
      rw [Nat.div_div_eq_div_mul, ← pow_succ]
      congr 2
      omega
    rw [hbits]
    exact hnext

/-- Decoding a word whose low bits carry symbol `i`'s canonical codeword (in
LSB order) returns `i` and consumes exactly its length, for any table built
from lengths of at most 15 bits under Kraft. -/
theorem decode_codeword (lengths : Nat → Nat) (symbols : Option (Nat → Nat)) (n : Nat)
    (hn : n ≤ 288)
    (hlen15 : ∀ k, k < n → lengths k ≤ 15) (hkraft : kraftSum lengths n ≤ 2^16)
    {i : Nat} (hi : i < n) (hpos : 0 < lengths i) (rest bl : Nat) :
    huff_decode_lsb (huff_init_lsb lengths symbols n)
        (rev (lengths i) (canonCode lengths n i) + rest * 2^(lengths i)) bl
      = (some i, lengths i) := by
  have hlen : ∀ k, k < n → lengths k ≤ 16 := fun k hk => le_trans (hlen15 k hk) (by norm_num)
  rcases le_or_lt (lengths i) 8 with h8 | h9
  · -- fast path
    apply decode_fast_hit lengths symbols n hlen hkraft hi hpos h8
    have hr := rev_lt (lengths i) (canonCode lengths n i)
    rw [Nat.add_mul_mod_self_right, Nat.mod_eq_of_lt hr]
  · -- slow path
    have h9' : 9 ≤ lengths i := h9
    have hcc : canonCode lengths n i < 2^(lengths i) :=
      canonCode_lt_pow lengths n hlen hkraft hi hpos
    have hmiss := long_codeword_miss lengths symbols n hlen hkraft hi h9' rest
    rw [huff_decode_lsb_eq, hmiss]
    have hrev := miss_rev rest h9' (hlen i hi) hcc
    rw [hrev]
    have := checkLengths_codeword lengths symbols n hn hlen15 hkraft hi h9' rest
      (lengths i - 9) 9 (le_refl 9) (by omega) rfl
    rw [show lengths i - 9 + 1 = lengths i - 8 by omega] at this
    rw [show (9:Nat) - 9 = 0 by omega] at this
    simp only [pow_zero, Nat.div_one] at this
    rw [show (17:Nat) - 9 = 8 by omega] at this
    exact this

/-- After a successful decode of the head codeword, shifting the stream by
the consumed length exposes the encoding of the tail. -/
theorem encodeStream_shift (lengths : Nat → Nat) (n s : Nat) (S : List Nat) :
    encodeStream lengths n (s :: S) / 2^(lengths s) = encodeStream lengths n S := by
  show (encodeSym lengths n s + encodeStream lengths n S * 2^(lengths s)) / 2^(lengths s) = _
  rw [Nat.add_mul_div_right _ _ (Nat.pos_pow_of_pos _ (by norm_num))]
  unfold encodeSym
  rw [Nat.div_eq_of_lt (rev_lt _ _)]
  omega

/-- The stream round trip: `decodeN` over the naive encoding of `S` returns
exactly `S`. -/
theorem decodeN_encodeStream (lengths : Nat → Nat) (symbols : Option (Nat → Nat)) (n : Nat)
    (hn : n ≤ 288)
    (hlen15 : ∀ k, k < n → lengths k ≤ 15) (hkraft : kraftSum lengths n ≤ 2^16) :
    ∀ S : List Nat, (∀ s ∈ S, s < n ∧ 0 < lengths s) →
      decodeN (huff_init_lsb lengths symbols n) (encodeStream lengths n S) S.length
        = some S := by
  intro S
  induction S with
  | nil => intro _; rfl
  | cons s S ih =>
    intro hS
    have hs := hS s (List.mem_cons_self s S)
    have hrest : ∀ x ∈ S, x < n ∧ 0 < lengths x :=
      fun x hx => hS x (List.mem_cons_of_mem s hx)
    show (match huff_decode_lsb (huff_init_lsb lengths symbols n)
            (encodeStream lengths n (s :: S)) 64 with
          | (some s', used) =>
              (decodeN (huff_init_lsb lengths symbols n)
                (encodeStream lengths n (s :: S) / 2^used) S.length).map (s' :: ·)
          | (none, _) => none) = some (s :: S)
    have hdec : huff_decode_lsb (huff_init_lsb lengths symbols n)
        (encodeStream lengths n (s :: S)) 64 = (some s, lengths s) := by
      have : encodeStream lengths n (s :: S)
          = rev (lengths s) (canonCode lengths n s)
            + encodeStream lengths n S * 2^(lengths s) := rfl
      rw [this]
      exact decode_codeword lengths symbols n hn hlen15 hkraft hs.1 hs.2 _ 64
    rw [hdec]
    show (decodeN (huff_init_lsb lengths symbols n)
        (encodeStream lengths n (s :: S) / 2^(lengths s)) S.length).map (s :: ·) = _
    rw [encodeStream_shift, ih hrest]
    rfl

/-! ## Generic decoder facts (any table) -/

/-- Whatever table the decoder is given, an entry that still reads `len = 0`
after `huff_init_lsb` carries the bit-reversed index in `rev`. -/
theorem fillRev_miss (fast : Nat → huff_fast_entry_t) (idx : Nat)
    (h : (fillRev fast idx).len = 0) :
    (fillRev fast idx).rev = huff_rev8full idx := by
  unfold fillRev at *
  by_cases h0 : (fast idx).len = 0
  · rw [if_pos h0]
  · rw [if_neg h0] at h
    exact absurd h h0

/-- The slow path either fails with `(none, 0)` or returns a symbol together
with a code length at least the loop's starting length. -/
theorem checkLengths_shape (t : huff_table_t) :
    ∀ fuel code bits l,
      checkLengths t code bits l fuel = (none, 0) ∨
      ∃ s u, checkLengths t code bits l fuel = (some s, u) ∧ l ≤ u := by
  intro fuel
  induction fuel with
  | zero => intro code bits l; left; rfl
  | succ fuel ih =>
    intro code bits l
    have hunfold : checkLengths t code bits l (fuel+1)
        = if (code * 2 + bits % 2) % 2^16 < t.sentinels l then
            (some (t.syms ((t.offsets l + (code * 2 + bits % 2) % 2^16) % 2^16)), l)
          else checkLengths t ((code * 2 + bits % 2) % 2^16) (bits / 2) (l + 1) fuel := rfl
    rw [hunfold]
    by_cases h : (code * 2 + bits % 2) % 2^16 < t.sentinels l
    · right
      exact ⟨_, l, by rw [if_pos h], le_refl l⟩
    · rw [if_neg h]
      rcases ih ((code * 2 + bits % 2) % 2^16) (bits / 2) (l + 1) with h1 | ⟨s, u, h1, h2⟩
      · left
        exact h1
      · right
        exact ⟨s, u, h1, by omega⟩

/-- If no length in the remaining range matches (the accumulated code never
drops below the corresponding sentinel), the slow path falls through to the
failure return.  `code < 2^(l-1)` reflects the `uint8_t` seed and keeps the
`uint16_t` accumulator exact. -/
theorem checkLengths_no_match (t : huff_table_t) :
    ∀ fuel l code bits, l + fuel ≤ 17 → 9 ≤ l → code < 2^(l-1) →
      (∀ j, j < fuel →
        ¬ (code * 2^(j+1) + rev (j+1) (bits % 2^(j+1)) < t.sentinels (l + j))) →
      checkLengths t code bits l fuel = (none, 0) := by
  intro fuel
  induction fuel with
  | zero => intro l code bits _ _ _ _; rfl
  | succ fuel ih =>
    intro l code bits hl17 hl9 hcode hno
    have hbound : code * 2 + bits % 2 < 2^l := by
      have h2 : bits % 2 < 2 := Nat.mod_lt _ (by norm_num)
      have : (2:Nat)^l = 2^(l-1) * 2 := by
        rw [← pow_succ]
        congr 1
        omega
      omega
    have hb16 : code * 2 + bits % 2 < 2^16 :=
      lt_of_lt_of_le hbound (Nat.pow_le_pow_right (by norm_num) (by omega))
    have hcode' : (code * 2 + bits % 2) % 2^16 = code * 2 + bits % 2 :=
      Nat.mod_eq_of_lt hb16
    have h0 := hno 0 (Nat.zero_lt_succ fuel)
    simp only [Nat.zero_add, Nat.add_zero, pow_one] at h0
    have hrev1 : rev 1 (bits % 2) = bits % 2 := by
      have hmm : bits % 2 % 2 = bits % 2 := Nat.mod_mod_of_dvd bits dvd_rfl
      show (bits % 2 % 2) * 2^0 + rev 0 (bits % 2 / 2) = bits % 2
      simp [rev, hmm]
    rw [hrev1] at h0
    have hunfold : checkLengths t code bits l (fuel+1)
        = if (code * 2 + bits % 2) % 2^16 < t.sentinels l then
            (some (t.syms ((t.offsets l + (code * 2 + bits % 2) % 2^16) % 2^16)), l)
          else checkLengths t ((code * 2 + bits % 2) % 2^16) (bits / 2) (l + 1) fuel := rfl
    rw [hunfold, hcode', if_neg (by omega)]
    apply ih (l + 1) (code * 2 + bits % 2) (bits / 2) (by omega) (by omega)
      (by rw [show l + 1 - 1 = l by omega]; exact hbound)
    intro j hj
    have hstep := hno (j + 1) (by omega)
    have hacc : (code * 2 + bits % 2) * 2^(j+1) + rev (j+1) (bits / 2 % 2^(j+1))
        = code * 2^(j+2) + rev (j+2) (bits % 2^(j+2)) := by
      have hr : rev (j+2) (bits % 2^(j+2))
          = (bits % 2) * 2^(j+1) + rev (j+1) (bits / 2 % 2^(j+1)) := by
        show (bits % 2^(j+2) % 2) * 2^(j+1) + rev (j+1) (bits % 2^(j+2) / 2) = _
        have h1 : bits % 2^(j+2) % 2 = bits % 2 :=
          Nat.mod_mod_of_dvd bits (dvd_pow_self 2 (Nat.succ_ne_zero (j+1)))
        have h2 : bits % 2^(j+2) / 2 = bits / 2 % 2^(j+1) := by
          rw [pow_succ', Nat.mod_mul_right_div_self]
        rw [h1, h2]
      rw [hr]
      ring
    rw [show l + 1 + j = l + (j + 1) by omega]
    rw [hacc]
    exact hstep

/-! ## The slow path as the specification describes it (for C3)

Modelled from the spec (C3 and §4.4.1): starting from
`code = fe.rev` — the bit-reversal of `bits & 0xFF` — the loop appends one
LSB-first bit of `bits >> 8` per length 9..16 and returns
`(syms[offsets[ℓ] + code], ℓ)` at the first `ℓ` whose sentinel exceeds the
accumulated code, or failure.  The `syms` index wraps per §4.3 step 5
("addition wraps modulo `syms` index space"). -/

def slowSpecLoop (t : huff_table_t) (code bits l : Nat) : Nat → Option Nat × Nat
  | 0 => (none, 0)
  | fuel+1 =>
      let code' := code * 2 + bits % 2
      if code' < t.sentinels l then
        (some (t.syms ((t.offsets l + code') % 2^16)), l)
      else slowSpecLoop t code' (bits / 2) (l + 1) fuel

def slowPathLsbSpec (t : huff_table_t) (bitstream : Nat) : Option Nat × Nat :=
  slowSpecLoop t (huff_rev8full (bitstream % 256)) (bitstream / 256) 9 8

/-- The decoder's `uint16_t` locals are invisible: with the `uint8_t` seed,
truncating `bits` to 16 bits and wrapping the accumulator changes nothing
over the 8 slow-path iterations. -/
theorem checkLengths_eq_slowSpec (t : huff_table_t) :
    ∀ fuel l code b16 bits, l + fuel ≤ 17 → 9 ≤ l → code < 2^(l-1) →
      b16 % 2^fuel = bits % 2^fuel →
      checkLengths t code b16 l fuel = slowSpecLoop t code bits l fuel := by
  intro fuel
  induction fuel with
  | zero => intro l code b16 bits _ _ _ _; rfl
  | succ fuel ih =>
    intro l code b16 bits hl17 hl9 hcode hb
    have hbit : b16 % 2 = bits % 2 := by
      have hd : (2:Nat) ∣ 2^(fuel+1) := dvd_pow_self 2 (Nat.succ_ne_zero fuel)
      calc b16 % 2 = b16 % 2^(fuel+1) % 2 := (Nat.mod_mod_of_dvd b16 hd).symm
        _ = bits % 2^(fuel+1) % 2 := by rw [hb]
        _ = bits % 2 := Nat.mod_mod_of_dvd bits hd
    have hbound : code * 2 + b16 % 2 < 2^l := by
      have h2 : b16 % 2 < 2 := Nat.mod_lt _ (by norm_num)
      have : (2:Nat)^l = 2^(l-1) * 2 := by
        rw [← pow_succ]
        congr 1
        omega
      omega
    have hb16lt : code * 2 + b16 % 2 < 2^16 :=
      lt_of_lt_of_le hbound (Nat.pow_le_pow_right (by norm_num) (by omega))
    have hunfold1 : checkLengths t code b16 l (fuel+1)
        = if (code * 2 + b16 % 2) % 2^16 < t.sentinels l then
            (some (t.syms ((t.offsets l + (code * 2 + b16 % 2) % 2^16) % 2^16)), l)
          else checkLengths t ((code * 2 + b16 % 2) % 2^16) (b16 / 2) (l + 1) fuel := rfl
    have hunfold2 : slowSpecLoop t code bits l (fuel+1)
        = if code * 2 + bits % 2 < t.sentinels l then
            (some (t.syms ((t.offsets l + (code * 2 + bits % 2)) % 2^16)), l)
          else slowSpecLoop t (code * 2 + bits % 2) (bits / 2) (l + 1) fuel := rfl
    rw [hunfold1, hunfold2, Nat.mod_eq_of_lt hb16lt, hbit]
    by_cases h : code * 2 + bits % 2 < t.sentinels l
    · rw [if_pos h, if_pos h]
    · rw [if_neg h, if_neg h]
      apply ih (l+1) (code * 2 + bits % 2) (b16 / 2) (bits / 2) (by omega) (by omega)
        (by rw [show l + 1 - 1 = l by omega, ← hbit]; exact hbound)
      have h1 : b16 % 2^(fuel+1) / 2 = b16 / 2 % 2^fuel := by
        rw [pow_succ', Nat.mod_mul_right_div_self]
      have h2 : bits % 2^(fuel+1) / 2 = bits / 2 % 2^fuel := by
        rw [pow_succ', Nat.mod_mul_right_div_self]
      rw [← h1, ← h2, hb]

/-! ## Spec-side builder quantities (for C5)

Modelled from the spec's words (C5 and §4.3): `count[ℓ]` is the number of
input symbols of length `ℓ`; `code[1] = 0`,
`code[ℓ] = (code[ℓ-1] + count[ℓ-1]) << 1`; `sym_idx[1] = 0`,
`sym_idx[ℓ] = sym_idx[ℓ-1] + count[ℓ-1]`. -/

def lengthCount (lengths : Nat → Nat) (n l : Nat) : Nat :=
  ((List.range n).filter (fun i => lengths i = l)).length

def specCode (lengths : Nat → Nat) (n : Nat) : Nat → Nat
  | 0 => 0
  | 1 => 0
  | l+1 => (specCode lengths n l + lengthCount lengths n l) * 2

def specSymIdx (lengths : Nat → Nat) (n : Nat) : Nat → Nat
  | 0 => 0
  | 1 => 0
  | l+1 => specSymIdx lengths n l + lengthCount lengths n l

theorem countFold_eq_lengthCount (lengths : Nat → Nat) :
    ∀ m l, countFold lengths m l = lengthCount lengths m l := by
  intro m
  induction m with
  | zero => intro l; rfl
  | succ m ih =>
    intro l
    rw [countFold_succ]
    unfold lengthCount
    rw [List.range_succ, List.filter_append]
    by_cases h : l = lengths m
    · simp [h, ih (lengths m)]
      rfl
    · simp [show ¬ (lengths m = l) by omega, h]
      exact ih l

theorem codeArr_eq_specCode (lengths : Nat → Nat) (n : Nat) :
    ∀ l, 1 ≤ l → codeArr lengths n l = specCode lengths n l := by
  intro l
  induction l with
  | zero => omega
  | succ l ih =>
    intro _
    match l, ih with
    | 0, _ =>
      show (codeArr lengths n 0 + cnt lengths n 0) * 2 = 0
      simp [codeArr, cnt]
    | l+1, ih =>
      show (codeArr lengths n (l+1) + cnt lengths n (l+1)) * 2
          = (specCode lengths n (l+1) + lengthCount lengths n (l+1)) * 2
      rw [ih (by omega)]
      have : cnt lengths n (l+1) = lengthCount lengths n (l+1) := by
        unfold cnt
        rw [if_neg (by omega), countFold_eq_lengthCount]
      rw [this]

theorem symIdxArr_eq_specSymIdx (lengths : Nat → Nat) (n : Nat) :
    ∀ l, 1 ≤ l → symIdxArr lengths n l = specSymIdx lengths n l := by
  intro l
  induction l with
  | zero => omega
  | succ l ih =>
    intro _
    match l, ih with
    | 0, _ =>
      show symIdxArr lengths n 0 + cnt lengths n 0 = 0
      simp [symIdxArr, cnt]
    | l+1, ih =>
      show symIdxArr lengths n (l+1) + cnt lengths n (l+1)
          = specSymIdx lengths n (l+1) + lengthCount lengths n (l+1)
      rw [ih (by omega)]
      have : cnt lengths n (l+1) = lengthCount lengths n (l+1) := by
        unfold cnt
        rw [if_neg (by omega), countFold_eq_lengthCount]
      rw [this]

/-! ## Exhaustive fall-through -/

/-- On a fast-table miss, if the accumulated code clears no sentinel at any
length 9..16, the decoder returns the failure pair. -/
theorem decode_no_match (t : huff_table_t) (w bl : Nat)
    (h0 : (t.fast (w % 256)).len = 0) (hrev : (t.fast (w % 256)).rev < 256)
    (hno : ∀ l, 9 ≤ l → l ≤ 16 →
      ¬ ((t.fast (w % 256)).rev * 2^(l - 8) + rev (l - 8) ((w / 256 % 2^16) % 2^(l - 8))
          < t.sentinels l)) :
    huff_decode_lsb t w bl = (none, 0) := by
  rw [huff_decode_lsb_eq, if_neg (by omega)]
  apply checkLengths_no_match t 8 9 _ _ (by omega) (le_refl 9)
    (by simpa using hrev)
  intro j hj
  have := hno (9 + j) (by omega) (by omega)
  rw [show 9 + j - 8 = j + 1 by omega] at this
  exact this

theorem countFold_all_zero (lengths : Nat → Nat) :
    ∀ m, (∀ i, i < m → lengths i = 0) → ∀ l, l ≠ 0 → countFold lengths m l = 0 := by
  intro m
  induction m with
  | zero => intro _ l _; rfl
  | succ m ih =>
    intro hz l hl
    rw [countFold_succ]
    have h0 : lengths m = 0 := hz m (Nat.lt_succ_self m)
    rw [if_neg (by omega)]
    exact ih (fun i hi => hz i (Nat.lt_succ_of_lt hi)) l hl

theorem kraftSum_all_zero (lengths : Nat → Nat) :
    ∀ m, (∀ i, i < m → lengths i = 0) → kraftSum lengths m = 0 := by
  intro m
  induction m with
  | zero => intro _; rfl
  | succ m ih =>
    intro hz
    show kraftSum lengths m + _ = 0
    rw [ih (fun i hi => hz i (Nat.lt_succ_of_lt hi))]
    simp [hz m (Nat.lt_succ_self m)]

theorem sentinelVal_all_zero (lengths : Nat → Nat) (n : Nat)
    (hz : ∀ i, i < n → lengths i = 0) : ∀ l, sentinelVal lengths n l = 0 := by
  intro l
  induction l with
  | zero => exact sentinelVal_zero lengths n
  | succ l ih =>
    rw [sentinelVal_succ, ih, countFold_all_zero lengths n hz (l+1) (by omega)]

/-! ## Concrete fixtures for witnesses and counterexamples -/

/-- Two one-bit codes (Kraft equality). -/
def cL2 : Nat → Nat := fun i => if i < 2 then 1 else 0

/-- Four two-bit codes (Kraft equality, the S1 fixed table). -/
def cL4 : Nat → Nat := fun i => if i < 4 then 2 else 0

/-- The empty alphabet: every length zero. -/
def cL0 : Nat → Nat := fun _ => 0

/-- Two nine-bit codes (incomplete table exercising the slow path). -/
def cL9 : Nat → Nat := fun i => if i < 2 then 9 else 0

/-- Kraft-equality table of depth 16: lengths 1..15 once each and 16 twice. -/
def cL17 : Nat → Nat := fun i => if i < 15 then i + 1 else if i < 17 then 16 else 0

/-- An over-long length (> MAX_CODE_LENGTH). -/
def cL17bad : Nat → Nat := fun _ => 17

/-- An explicit external alphabet for the remapping claim. -/
def cSyms57 : Nat → Nat := fun i => if i = 0 then 5 else 7

set_option maxRecDepth 100000

/-! ## Claim theorems -/

/-- C1 (amended): round-trip holds for every length table over at most 288
symbols whose lengths all lie in [0, 15] and satisfy the Kraft inequality
with equality: decoding the LSB-first canonical encoding of any coded stream
`S` with `huff_decode_lsb` over the `huff_init_lsb` table recovers exactly
`S`, each call returning the next symbol and consuming exactly its codeword
length.  (The original range [0, 16] fails: the `uint16_t` sentinel of a
full-depth table wraps to 0 and length-16 codewords no longer decode.) -/
theorem C1_round_trip (lengths : Nat → Nat) (symbols : Option (Nat → Nat)) (n : Nat)
    (hn : n ≤ 288) (hlen : ∀ i, i < n → lengths i ≤ 15)
    (hkraft : kraftSum lengths n = 2^16)
    (S : List Nat) (hS : ∀ s ∈ S, s < n ∧ 0 < lengths s) (bl : Nat) :
    (∀ k (hk : k < S.length),
        huff_decode_lsb (huff_init_lsb lengths symbols n)
            (encodeStream lengths n (S.drop k)) bl
          = (some (S.get ⟨k, hk⟩), lengths (S.get ⟨k, hk⟩))) ∧
    decodeN (huff_init_lsb lengths symbols n) (encodeStream lengths n S) S.length
      = some S := by
  have hkraft' : kraftSum lengths n ≤ 2^16 := le_of_eq hkraft
  constructor
  · intro k hk
    have hdrop : S.drop k = S[k] :: S.drop (k+1) := List.drop_eq_getElem_cons hk
    have hmem : S[k] ∈ S := List.getElem_mem hk
    have hs := hS _ hmem
    have hget : S.get ⟨k, hk⟩ = S[k] := rfl
    rw [hdrop, hget]
    have henc : encodeStream lengths n (S[k] :: S.drop (k+1))
        = rev (lengths S[k]) (canonCode lengths n S[k])
          + encodeStream lengths n (S.drop (k+1)) * 2^(lengths S[k]) := rfl
    rw [henc]
    exact decode_codeword lengths symbols n hn hlen hkraft' hs.1 hs.2 _ bl
  · exact decodeN_encodeStream lengths symbols n hn hlen hkraft' S hS

/-- C1 witness: the two-symbol Kraft-equality table `[1,1]` round-trips the
stream `[0,1,1,0]`. -/
theorem C1_round_trip_witness :
    decodeN (huff_init_lsb cL2 none 2) (encodeStream cL2 2 [0,1,1,0]) 4
      = some [0,1,1,0] :=
  (C1_round_trip cL2 none 2 (by decide) (by decide) (by decide)
    [0,1,1,0] (by decide) 64).2

/-- C1 counterexample: the depth-16 Kraft-equality table (lengths 1..15 and
16, 16) is inside the claim's hypotheses, yet the one-symbol stream `[16]`
(a length-16 codeword) is not recovered — its sentinel wrapped to 0 in the
`uint16_t` store and decoding fails. -/
theorem C1_counterexample :
    kraftSum cL17 17 = 2^16 ∧ (∀ i, i < 17 → cL17 i ≤ 16) ∧ 17 ≤ 288 ∧
    (0 < cL17 16 ∧ 16 < 17) ∧
    decodeN (huff_init_lsb cL17 none 17) (encodeStream cL17 17 [16]) 1 = none := by
  refine ⟨by decide, by decide, by decide, by decide, ?_⟩
  decide

/-- C2 counterexample: for the table built from `[1,1]`, the entry
`fe = fast[0]` has `fe.len = 1 ≠ 0`, the call passes `bit_length = 0 <
fe.len`, and the fast path is taken all the same, returning
`(fe.sym, fe.len)` — contradicting the claimed `fe.len ≤ bit_length`
gating. -/
theorem C2_counterexample :
    ((huff_init_lsb cL2 none 2).fast (0 % 256)).len = 1 ∧
    ¬ ((huff_init_lsb cL2 none 2).fast (0 % 256)).len ≤ 0 ∧
    huff_decode_lsb (huff_init_lsb cL2 none 2) 0 0
      = (some ((huff_init_lsb cL2 none 2).fast (0 % 256)).sym,
         ((huff_init_lsb cL2 none 2).fast (0 % 256)).len) := by
  refine ⟨by decide, by decide, by decide⟩

/-- C2 (amended): `huff_decode_lsb` takes the fast path and returns
`(fe.sym, fe.len)` for `fe = fast[bits & 0xFF]` if and only if
`fe.len ≠ 0`; the `bit_length` argument is discarded
(`(void)bit_length`), so an entry whose codeword is longer than
`bit_length` is still returned. -/
theorem C2_fast_path_iff (t : huff_table_t) (w bl : Nat) :
    huff_decode_lsb t w bl
        = (some (t.fast (w % 256)).sym, (t.fast (w % 256)).len)
      ↔ (t.fast (w % 256)).len ≠ 0 := by
  constructor
  · intro h
    by_contra hlen0
    rw [huff_decode_lsb_eq, if_neg (by omega)] at h
    rcases checkLengths_shape t 8 (t.fast (w % 256)).rev ((w / 256) % 2^16) 9
      with h1 | ⟨s, u, h1, h2⟩
    · rw [h1] at h
      exact Option.noConfusion (congrArg Prod.fst h)
    · rw [h1] at h
      have h3 := congrArg Prod.snd h
      simp only at h3
      omega
  · intro h
    rw [huff_decode_lsb_eq, if_pos h]

/-- C2 witness: for the `[2,2,2,2]` table and word 27 the fast entry is live
(`len = 2`), and the fast path fires even with `bit_length = 1 < 2`. -/
theorem C2_fast_path_iff_witness :
    huff_decode_lsb (huff_init_lsb cL4 none 4) 27 1
        = (some ((huff_init_lsb cL4 none 4).fast (27 % 256)).sym,
           ((huff_init_lsb cL4 none 4).fast (27 % 256)).len) :=
  (C2_fast_path_iff (huff_init_lsb cL4 none 4) 27 1).mpr (by decide)

/-- C3: on a fast-table miss (`fe.len = 0`) over any table built by
`huff_init_lsb`, the decoder computes exactly the claim's algorithm: it
seeds the MSB-canonical code with `fe.rev` — the bit-reversal of
`bits & 0xFF` — appends one LSB-first bit of `bits >> 8` per length
9..MAX_CODE_LENGTH in increasing order, returns
`(syms[offsets[ℓ] + code], ℓ)` at the first `ℓ` with
`code < sentinels[ℓ]`, and reports failure if no length matches. -/
theorem C3_slow_path (lengths : Nat → Nat) (symbols : Option (Nat → Nat))
    (n w bl : Nat)
    (hmiss : ((huff_init_lsb lengths symbols n).fast (w % 256)).len = 0) :
    huff_decode_lsb (huff_init_lsb lengths symbols n) w bl
      = slowPathLsbSpec (huff_init_lsb lengths symbols n) w := by
  have hrev : ((huff_init_lsb lengths symbols n).fast (w % 256)).rev
      = huff_rev8full (w % 256) := by
    have h := fillRev_miss (buildLoop lengths n n).fast (w % 256)
    rw [← init_fast lengths symbols n] at h
    exact h hmiss
  rw [huff_decode_lsb_eq, if_neg (by omega), hrev]
  unfold slowPathLsbSpec
  apply checkLengths_eq_slowSpec _ 8 9 _ _ _ (by omega) (by omega)
  · exact lt_of_lt_of_le (rev_lt 8 _) (by norm_num)
  · have hd : (2:Nat)^8 ∣ 2^16 := pow_dvd_pow 2 (by norm_num)
    exact Nat.mod_mod_of_dvd _ hd

/-- C3 witness: the `[9,9]` table misses the fast table on word 256, and the
decoder output coincides with the specified slow-path loop. -/
theorem C3_slow_path_witness :
    huff_decode_lsb (huff_init_lsb cL9 none 2) 256 64
      = slowPathLsbSpec (huff_init_lsb cL9 none 2) 256 :=
  C3_slow_path cL9 none 2 256 64 (by decide)

/-- C4: fast-table coverage after `huff_init_lsb` on a lengths array
satisfying the Kraft inequality — every index with `fast[i].len > 0` carries
a symbol whose canonical codeword (LSB bit order) occupies the low
`fast[i].len` bits of `i`, and conversely every 8-bit pattern whose low bits
are a codeword of length ≤ 8 holds that codeword's length and symbol. -/
theorem C4_fast_coverage (lengths : Nat → Nat) (symbols : Option (Nat → Nat)) (n : Nat)
    (hn : n ≤ 288) (hlen : ∀ i, i < n → lengths i ≤ 16)
    (hkraft : kraftSum lengths n ≤ 2^16) :
    (∀ idx, idx < 256 → 0 < ((huff_init_lsb lengths symbols n).fast idx).len →
      ∃ j, j < n ∧ ((huff_init_lsb lengths symbols n).fast idx).sym = j ∧
        lengths j = ((huff_init_lsb lengths symbols n).fast idx).len ∧
        idx % 2^(lengths j) = rev (lengths j) (canonCode lengths n j)) ∧
    (∀ j, j < n → 0 < lengths j → lengths j ≤ 8 → ∀ p, p < 256 →
      p % 2^(lengths j) = rev (lengths j) (canonCode lengths n j) →
      ((huff_init_lsb lengths symbols n).fast p).len = lengths j ∧
      ((huff_init_lsb lengths symbols n).fast p).sym = j) := by
  have hn' := hn
  constructor
  · intro idx hidx hpos
    by_cases hex : ∃ j, j < n ∧ fastPat lengths n j idx
    · obtain ⟨j, hj, hpat⟩ := hex
      have h := init_fast_hit lengths symbols n hlen hkraft hj hidx hpat
      exact ⟨j, hj, h.2, by rw [h.1], hpat.2.2⟩
    · have hno : ∀ j, j < n → ¬ fastPat lengths n j idx :=
        fun j hj hp => hex ⟨j, hj, hp⟩
      have h := init_fast_miss lengths symbols n hlen hkraft hidx hno
      rw [h] at hpos
      exact absurd hpos (by simp)
  · intro j hj hpj hj8 p hp hm
    exact init_fast_hit lengths symbols n hlen hkraft hj hp ⟨hpj, hj8, hm⟩

/-- C4 witness: in the `[2,2,2,2]` table, symbol 2's codeword (canonical
code `10`, LSB image `01`) occupies fast index 1. -/
theorem C4_fast_coverage_witness :
    ((huff_init_lsb cL4 none 4).fast 1).len = cL4 2 ∧
    ((huff_init_lsb cL4 none 4).fast 1).sym = 2 :=
  (C4_fast_coverage cL4 none 4 (by decide) (by decide) (by decide)).2
    2 (by decide) (by decide) (by decide) 1 (by decide) (by decide)

/-- C5: builder canonical math — for every length `ℓ ∈ [1, 16]` the stored
`uint16_t` table satisfies `sentinels[ℓ] = code[ℓ] + count[ℓ]` and
`offsets[ℓ] = sym_idx[ℓ] - code[ℓ]` in wrapping 16-bit arithmetic, with
`count`, `code`, `sym_idx` given by the claim's recurrences over the
number of input symbols of each length. -/
theorem C5_builder_math (lengths : Nat → Nat) (symbols : Option (Nat → Nat)) (n : Nat)
    (hlen : ∀ i, i < n → lengths i ≤ 16) :
    ∀ l, 1 ≤ l → l ≤ 16 →
      (huff_init_lsb lengths symbols n).sentinels l
        = (specCode lengths n l + lengthCount lengths n l) % 2^16 ∧
      (huff_init_lsb lengths symbols n).offsets l
        = (((specSymIdx lengths n l : Int) - (specCode lengths n l : Int)) % 2^16).toNat := by
  have _ := hlen
  intro l h1 h16
  have hcnt : cnt lengths n l = lengthCount lengths n l := by
    unfold cnt
    rw [if_neg (by omega), countFold_eq_lengthCount]
  constructor
  · rw [init_sentinels]
    unfold sentinelVal
    rw [codeArr_eq_specCode lengths n l h1, hcnt]
  · rw [init_offsets, symIdxArr_eq_specSymIdx lengths n l h1,
        codeArr_eq_specCode lengths n l h1]

/-- C5 witness: the `[2,2,2,2]` table at `ℓ = 2`. -/
theorem C5_builder_math_witness :
    (huff_init_lsb cL4 none 4).sentinels 2
      = (specCode cL4 4 2 + lengthCount cL4 4 2) % 2^16 ∧
    (huff_init_lsb cL4 none 4).offsets 2
      = (((specSymIdx cL4 4 2 : Int) - (specCode cL4 4 2 : Int)) % 2^16).toNat :=
  C5_builder_math cL4 none 4 (by decide) 2 (by decide) (by decide)

/-- C6: failure sentinel and exhaustive fall-through — whenever no code
length 9..MAX_CODE_LENGTH matches (the accumulated code never drops below a
sentinel) a fast-table miss decodes to the failure pair, modelled as
`(none, 0)` for the C return `((uint_fast16_t)-1, *used = 0)`; and over a
table built from an empty or all-zero lengths array every word decodes to
the failure pair. -/
theorem C6_failure_sentinel :
    (∀ (t : huff_table_t) (w bl : Nat),
      (t.fast (w % 256)).len = 0 → (t.fast (w % 256)).rev < 256 →
      (∀ l, l < 17 → 9 ≤ l →
        ¬ ((t.fast (w % 256)).rev * 2^(l - 8)
            + rev (l - 8) ((w / 256 % 2^16) % 2^(l - 8)) < t.sentinels l)) →
      huff_decode_lsb t w bl = (none, 0)) ∧
    (∀ (lengths : Nat → Nat) (symbols : Option (Nat → Nat)) (n w bl : Nat),
      (∀ i, i < n → lengths i = 0) →
      huff_decode_lsb (huff_init_lsb lengths symbols n) w bl = (none, 0)) := by
  constructor
  · intro t w bl h0 hrev hno
    exact decode_no_match t w bl h0 hrev (fun l hl9 hl16 => hno l (by omega) hl9)
  · intro lengths symbols n w bl hz
    have hlen16 : ∀ i, i < n → lengths i ≤ 16 := by
      intro i hi
      rw [hz i hi]
      norm_num
    have hkraft0 : kraftSum lengths n ≤ 2^16 := by
      rw [kraftSum_all_zero lengths n hz]
      norm_num
    have hmiss := init_fast_miss lengths symbols n hlen16 hkraft0
      (Nat.mod_lt w (show 0 < 256 by norm_num))
      (fun j hj hp => by
        have := hp.1
        rw [hz j hj] at this
        omega)
    apply decode_no_match
    · rw [hmiss]
    · rw [hmiss]
      exact lt_of_lt_of_le (rev_lt 8 _) (by norm_num)
    · intro l _ _
      rw [init_sentinels, sentinelVal_all_zero lengths n hz l]
      simp

/-- C6 witness: over the all-zero three-symbol table, both the general
fall-through and the empty-table conjunct give the failure pair. -/
theorem C6_failure_sentinel_witness :
    huff_decode_lsb (huff_init_lsb cL0 none 3) 7 64 = (none, 0) ∧
    huff_decode_lsb (huff_init_lsb cL0 none 3) 12345 64 = (none, 0) :=
  ⟨C6_failure_sentinel.1 (huff_init_lsb cL0 none 3) 7 64
      (by decide) (by decide) (by decide),
   C6_failure_sentinel.2 cL0 none 3 12345 64 (by decide)⟩

/-- C7: the inline `huff_init_lsb` discards its `symbols` parameter
(`(void)symbols;`, line 349) and always stores the dense index `i` —
contrary to its own documentation ("array of symbols corresponding to the
provided lengths") and to the parallel out-of-line implementation in
`src/huff.c`, which stores `symbols[i]`.  With `lengths = [1,1]` and
`symbols = [5,7]`, the built table maps to 0 and 1, not 5 and 7, and the
result is identical to the `symbols = NULL` call. -/
theorem C7_symbols_ignored :
    (huff_init_lsb cL2 (some cSyms57) 2).syms 0 = 0 ∧
    (huff_init_lsb cL2 (some cSyms57) 2).syms 1 = 1 ∧
    ((huff_init_lsb cL2 (some cSyms57) 2).fast 0).sym = 0 ∧
    (huff_init_lsb cL2 (some cSyms57) 2).syms 0 ≠ 5 ∧
    ((huff_init_lsb cL2 (some cSyms57) 2).fast 0).sym ≠ 5 ∧
    huff_init_lsb cL2 (some cSyms57) 2 = huff_init_lsb cL2 none 2 :=
  ⟨by decide, by decide, by decide, by decide, by decide, rfl⟩

/-- C8 counterexample: on `lengths = [17]` (an entry exceeding
MAX_CODE_LENGTH = 16) the builder does not report any error: its only
return statement yields `true` (success); there is no `InvalidLength` (or
any other) error channel in the API. -/
theorem C8_counterexample :
    huff_init_lsb_ret cL17bad none 1 = true ∧
    huff_init_lsb_ret cL17bad none 1 ≠ false := by
  exact ⟨rfl, by decide⟩

/-- C8 (amended): the builder performs no validation of the lengths array —
`huff_init_lsb` returns `true` on every input.  Lengths above
MAX_CODE_LENGTH are an unchecked documented precondition (violating it
makes the C code index `count[]`/`sym_idx[]` out of bounds), not a reported
error. -/
theorem C8_no_validation (lengths : Nat → Nat) (symbols : Option (Nat → Nat))
    (n : Nat) :
    huff_init_lsb_ret lengths symbols n = true := rfl

/-- C9 counterexample: reading `[0xAB, 0xCD]` from `bit_in_byte = 5` does
return 11 bits, but their value is `(0xCDAB >> 5) & 0x7FF = 0x66D`, not the
claimed numeral `0x65D`. -/
theorem C9_counterexample :
    (huff_read [0xAB, 0xCD] 0 5).result % 2^11 = 0x66D ∧
    (huff_read [0xAB, 0xCD] 0 5).nbits = 11 ∧
    (0x66D : Nat) ≠ 0x65D := by
  decide

/-- C9 (amended): reading from the two-byte buffer `[0xAB, 0xCD]` with the
cursor at `bit_in_byte = 5` returns a word whose low 11 bits equal
`(0xCDAB >> 5) & 0x7FF = 0x66D` and reports `nbits = 11 =
min(W, 8·(end - byte_ptr) - bit_in_byte)`. -/
theorem C9_bitreader_boundary :
    (huff_read [0xAB, 0xCD] 0 5).result % 2^11 = (0xCDAB >>> 5) % 2^11 ∧
    (0xCDAB >>> 5) % 2^11 = 0x66D ∧
    (huff_read [0xAB, 0xCD] 0 5).nbits = 11 ∧
    (huff_read [0xAB, 0xCD] 0 5).nbits = min 64 (8 * 2 - 5) := by
  decide

/-- C10: `bit_length` has no influence on the inline decoder —
`huff_decode_lsb` yields the same symbol and the same `*used` for any two
values of `bit_length`, and a live fast entry is returned as a success even
when its codeword length exceeds `bit_length`. -/
theorem C10_bit_length_ignored :
    (∀ (t : huff_table_t) (w b1 b2 : Nat),
      huff_decode_lsb t w b1 = huff_decode_lsb t w b2) ∧
    (∀ (t : huff_table_t) (w bl : Nat), (t.fast (w % 256)).len ≠ 0 →
      huff_decode_lsb t w bl
        = (some (t.fast (w % 256)).sym, (t.fast (w % 256)).len)) := by
  constructor
  · intro t w b1 b2
    rfl
  · intro t w bl h
    rw [huff_decode_lsb_eq, if_pos h]

/-- C10 witness: word 6 hits a 2-bit entry of the `[2,2,2,2]` table and is
returned as a success even with `bit_length = 0`. -/
theorem C10_bit_length_ignored_witness :
    huff_decode_lsb (huff_init_lsb cL4 none 4) 6 0
      = (some ((huff_init_lsb cL4 none 4).fast (6 % 256)).sym,
         ((huff_init_lsb cL4 none 4).fast (6 % 256)).len) :=
  C10_bit_length_ignored.2 (huff_init_lsb cL4 none 4) 6 0 (by decide)

end Huff
